import Mathlib

/-!
# gen_weekly: extraction and dedup of the weekly menu

A shallow embedding of `src/gen_weekly/main.go` (`parseOneLine`, `alreadyDone`,
`getNewestTweet`) together with the pieces of the Go standard library they call:
the backtracking semantics of `regexp` for the pattern `re`, the civil-date
arithmetic of `time` (`Date`, `AddDate`, `Format`), and slicing of strings.

Text handed to the regular expression is a sequence of Unicode code points
(`main` builds `oneline` rune by rune, so it is valid UTF-8); ledger fields are
sequences of bytes, because `v[0][:8]` slices bytes.
-/

namespace GenWeekly

/-! ## Outcomes of Go calls -/

/-- Outcome of running a Go function body: it returns a value or the goroutine panics. -/
inductive Result (α : Type) where
  | ret (a : α)
  | panic (msg : String)
  deriving Repr, DecidableEq

/-- Sequencing of Go statements: a panic aborts what follows. -/
def Result.bind {α β : Type} : Result α → (α → Result β) → Result β
  | .ret a, f => f a
  | .panic m, _ => .panic m

/-- Go index expression `xs[i]`: panics when `i` is out of range. -/
def index {α : Type} (xs : List α) (i : Nat) : Result α :=
  match xs.get? i with
  | some a => .ret a
  | none => .panic "index out of range"

/-! ## Regular expressions (package `regexp`, leftmost-first semantics) -/

/-- Syntax of the regular expressions needed for `re`. -/
inductive Regex where
  /-- a literal rune -/
  | char (c : Char)
  /-- the dot `.` without the `s` flag: any rune but newline -/
  | anyNotNL
  /-- the class `\d`: an ASCII digit -/
  | digit
  /-- concatenation -/
  | cat (r s : Regex)
  /-- alternation `r|s`, preferring `r` -/
  | alt (r s : Regex)
  /-- repetition `r*` when `greedy`, `r*?` otherwise -/
  | star (greedy : Bool) (r : Regex)
  /-- repetition `r+` when `greedy`, `r+?` otherwise -/
  | plus (greedy : Bool) (r : Regex)
  /-- capturing group number `i` -/
  | group (i : Nat) (r : Regex)
  deriving Repr

/-- The class `\d` of Go's regexp syntax: `[0-9]`. -/
def isDigit (c : Char) : Bool := decide ('0' ≤ c) && decide (c ≤ '9')

/-- Contents of the capture groups, group 0 being the whole match. -/
abbrev Caps := List (List Char)

/-- First alternative that succeeds, in priority order. -/
def orElse {α : Type} (a b : Option α) : Option α :=
  match a with
  | some r => some r
  | none => b

/-- Repetition of `step`, each iteration consuming input. A greedy loop prefers one more
iteration over leaving, a lazy one prefers leaving. `fuel` bounds the iterations. -/
def starLoop {α : Type} (step : List Char → Caps → (List Char → Caps → Option α) → Option α)
    (greedy : Bool) : Nat → List Char → Caps → (List Char → Caps → Option α) → Option α
  | 0, s, caps, k => k s caps
  | fuel + 1, s, caps, k =>
    let more := step s caps (fun s1 caps1 =>
      if s1.length < s.length then starLoop step greedy fuel s1 caps1 k else none)
    if greedy then orElse more (k s caps) else orElse (k s caps) more

/-- Backtracking matcher: `matchK r s caps k` matches `r` against a prefix of the remaining
input `s` and hands the rest to the continuation `k`; alternatives are tried in the order a
backtracking engine tries them and the first overall success is returned. -/
def Regex.matchK {α : Type} : Regex → List Char → Caps → (List Char → Caps → Option α) → Option α
  | .char c, s, caps, k =>
    match s with
    | x :: xs => if x = c then k xs caps else none
    | [] => none
  | .anyNotNL, s, caps, k =>
    match s with
    | x :: xs => if x ≠ '\n' then k xs caps else none
    | [] => none
  | .digit, s, caps, k =>
    match s with
    | x :: xs => if isDigit x then k xs caps else none
    | [] => none
  | .cat r1 r2, s, caps, k => matchK r1 s caps (fun s1 caps1 => matchK r2 s1 caps1 k)
  | .alt r1 r2, s, caps, k => orElse (matchK r1 s caps k) (matchK r2 s caps k)
  | .star greedy r, s, caps, k =>
    starLoop (fun s1 caps1 k1 => matchK r s1 caps1 k1) greedy s.length s caps k
  | .plus greedy r, s, caps, k =>
    matchK r s caps (fun s1 caps1 =>
      starLoop (fun s2 caps2 k2 => matchK r s2 caps2 k2) greedy s1.length s1 caps1 k)
  | .group i r, s, caps, k =>
    matchK r s caps (fun s1 caps1 => k s1 (caps1.set i (s.take (s.length - s1.length))))

/-- Number of capture groups of a regular expression. -/
def Regex.numSubexp : Regex → Nat
  | .char _ => 0
  | .anyNotNL => 0
  | .digit => 0
  | .cat r s => max r.numSubexp s.numSubexp
  | .alt r s => max r.numSubexp s.numSubexp
  | .star _ r => r.numSubexp
  | .plus _ r => r.numSubexp
  | .group i r => max i r.numSubexp

/-- Match anchored at the start of `s`: the submatches and the input left after the match. -/
def Regex.matchAt (r : Regex) (s : List Char) : Option (Caps × List Char) :=
  r.matchK s (List.replicate (r.numSubexp + 1) [])
    (fun s1 caps => some (caps.set 0 (s.take (s.length - s1.length)), s1))

/-- Leftmost match: the first start position, scanning left to right, that has a match. -/
def Regex.find (r : Regex) : List Char → Option (Caps × List Char)
  | [] => r.matchAt []
  | c :: cs =>
    match r.matchAt (c :: cs) with
    | some m => some m
    | none => Regex.find r cs

/-- The loop of `allMatches`: successive non-overlapping leftmost matches from the current
position. `prevAtPos` records that the previous match ended exactly at the current position,
where an empty match is not accepted. -/
def Regex.allMatches (r : Regex) : Nat → Bool → List Char → List Caps
  | 0, _, _ => []
  | fuel + 1, prevAtPos, s =>
    match r.find s with
    | none => []
    | some (m, rest) =>
      if rest.length = s.length then
        let tail := match s with
          | [] => []
          | _ :: cs => Regex.allMatches r fuel false cs
        if prevAtPos then tail else m :: tail
      else m :: Regex.allMatches r fuel true rest

/-- The call `re.FindAllStringSubmatch(s, -1)`. -/
def Regex.FindAllStringSubmatch (r : Regex) (s : List Char) : List Caps :=
  r.allMatches (s.length + 1) false s

/-- The pattern `(9|15)\.(.*?)(\d+)円` of `main.go`. -/
def re : Regex :=
  .cat (.group 1 (.alt (.char '9') (.cat (.char '1') (.char '5'))))
    (.cat (.char '.')
      (.cat (.group 2 (.star false .anyNotNL))
        (.cat (.group 3 (.plus true .digit))
          (.char '円'))))

/-! ## Calendar arithmetic (package `time`)

The arithmetic is that of the `time` package whose absolute epoch is January 1 of
`absoluteZeroYear` (the Go releases up to 1.23): `daysSinceEpoch`, `absDate` and `Date`. -/

/-- Seconds in a day. -/
def secondsPerDay : Nat := 24 * 60 * 60

/-- Year of the absolute epoch from which `abs` counts seconds. -/
def absoluteZeroYear : Int := -292277022399

/-- Days in a 400-year cycle. -/
def daysPer400Years : Nat := 365 * 400 + 97

/-- Days in a 100-year cycle without the 400-year leap day. -/
def daysPer100Years : Nat := 365 * 100 + 24

/-- Days in a 4-year cycle. -/
def daysPer4Years : Nat := 365 * 4 + 1

/-- The table `daysBefore`: `daysBefore[m]` counts the days of a non-leap year before
month `m+1`. -/
def daysBefore : List Nat :=
  [0,
   31,
   31 + 28,
   31 + 28 + 31,
   31 + 28 + 31 + 30,
   31 + 28 + 31 + 30 + 31,
   31 + 28 + 31 + 30 + 31 + 30,
   31 + 28 + 31 + 30 + 31 + 30 + 31,
   31 + 28 + 31 + 30 + 31 + 30 + 31 + 31,
   31 + 28 + 31 + 30 + 31 + 30 + 31 + 31 + 30,
   31 + 28 + 31 + 30 + 31 + 30 + 31 + 31 + 30 + 31,
   31 + 28 + 31 + 30 + 31 + 30 + 31 + 31 + 30 + 31 + 30,
   31 + 28 + 31 + 30 + 31 + 30 + 31 + 31 + 30 + 31 + 30 + 31]

/-- A `time.Time` in a location with a fixed offset (UTC for the timestamps of the feed),
represented by the value of `t.abs()`: the seconds elapsed on the wall clock of that location
since January 1 of `absoluteZeroYear`, a `uint64`. Nanoseconds play no role in what follows. -/
structure Time where
  abs : Nat
  deriving Repr, DecidableEq

/-- The function `isLeap` of package `time`. -/
def isLeap (year : Int) : Bool :=
  decide (year % 4 = 0) && (decide (year % 100 ≠ 0) || decide (year % 400 = 0))

/-- The function `norm` of package `time`: `norm hi lo base` moves the overflow of `lo`
beyond `[0, base)` into `hi`. -/
def norm (hi lo base : Int) : Int × Int := (hi + lo / base, lo % base)

/-- The function `daysSinceEpoch`: days from the absolute epoch to January 1 of `year`,
computed on the `uint64` value `y = year - absoluteZeroYear`. -/
def daysSinceEpoch (year : Int) : Nat :=
  let y := ((year - absoluteZeroYear) % 2 ^ 64).toNat
  let n400 := y / 400
  let y1 := y - 400 * n400
  let n100 := y1 / 100
  let y2 := y1 - 100 * n100
  let n4 := y2 / 4
  let y3 := y2 - 4 * n4
  daysPer400Years * n400 + daysPer100Years * n100 + daysPer4Years * n4 + 365 * y3

/-- The function `absDate` with `full = true`: year, month (1 to 12) and day of the month
of an absolute time. -/
def absDate (abs : Nat) : Int × Nat × Nat :=
  let d := abs / secondsPerDay
  let n400 := d / daysPer400Years
  let d1 := d - daysPer400Years * n400
  let n100 := d1 / daysPer100Years
  let n100 := n100 - n100 / 4
  let d2 := d1 - daysPer100Years * n100
  let n4 := d2 / daysPer4Years
  let d3 := d2 - daysPer4Years * n4
  let n := d3 / 365
  let n := n - n / 4
  let y := 400 * n400 + 100 * n100 + 4 * n4 + n
  let yday := d3 - 365 * n
  let year : Int := (y : Int) + absoluteZeroYear
  if isLeap year && decide (yday = 31 + 29 - 1) then (year, 2, 29)
  else
    let day := if isLeap year && decide (yday > 31 + 29 - 1) then yday - 1 else yday
    let month := day / 31
    let e := daysBefore.getD (month + 1) 0
    if day ≥ e then (year, month + 2, day - e + 1)
    else (year, month + 1, day - daysBefore.getD month 0 + 1)

/-- The method `Date`: year, month and day of `t`. -/
def Time.Date (t : Time) : Int × Nat × Nat := absDate t.abs

/-- The method `Clock`: hour, minute and second of `t`. -/
def Time.Clock (t : Time) : Nat × Nat × Nat :=
  let sec := t.abs % secondsPerDay
  let hour := sec / 3600
  let sec := sec - hour * 3600
  let min := sec / 60
  (hour, min, sec - min * 60)

/-- The function `time.Date` for a location with a fixed offset: normalises the fields and
assembles the absolute time in `uint64` arithmetic. -/
def Date (year month day hour min sec : Int) : Time :=
  let (year, m) := norm year (month - 1) 12
  let month := m + 1
  let (min, sec) := norm min sec 60
  let (hour, min) := norm hour min 60
  let (day, hour) := norm day hour 24
  let d : Int := daysSinceEpoch year
  let d := d + daysBefore.getD (month - 1).toNat 0
  let d := if isLeap year && decide (month ≥ 3) then d + 1 else d
  let d := d + (day - 1)
  let abs := d * secondsPerDay + (hour * 3600 + min * 60 + sec)
  ⟨(abs % 2 ^ 64).toNat⟩

/-- The method `AddDate`. -/
def Time.AddDate (t : Time) (years months days : Int) : Time :=
  let (year, month, day) := t.Date
  let (hour, min, sec) := t.Clock
  GenWeekly.Date (year + years) (month + months) (day + days) hour min sec

/-- Decimal digits of `u`, most significant first (the buffer of `appendInt` holds 20). -/
def decDigits : Nat → Nat → List Char
  | 0, _ => []
  | fuel + 1, u =>
    if u < 10 then [Char.ofNat (48 + u)]
    else decDigits fuel (u / 10) ++ [Char.ofNat (48 + u % 10)]

/-- The function `appendInt`: `x` in decimal, zero-padded to `width` digits, after a minus
sign when negative. -/
def appendInt (x : Int) (width : Nat) : List Char :=
  let ds := decDigits 20 x.natAbs
  (if x < 0 then ['-'] else []) ++ List.replicate (width - ds.length) '0' ++ ds

/-- The method `Format` for layouts made of the chunks `2006` (year), `01` (month), `02` (day)
and literal characters. -/
def Time.Format (t : Time) : List Char → List Char
  | '2' :: '0' :: '0' :: '6' :: layout => appendInt t.Date.1 4 ++ Time.Format t layout
  | '0' :: '1' :: layout => appendInt t.Date.2.1 2 ++ Time.Format t layout
  | '0' :: '2' :: layout => appendInt t.Date.2.2 2 ++ Time.Format t layout
  | c :: layout => c :: Time.Format t layout
  | [] => []

/-- The method `After`, for two times that carry the same UTC offset (the timestamps of the
feed are all `+0000`), where comparing wall clocks is comparing instants. -/
def Time.After (t u : Time) : Bool := decide (u.abs < t.abs)

/-- The zero `Time`: January 1, year 1, 00:00:00 UTC. -/
def Time.zero : Time := ⟨9223371966579724800⟩

/-! ## Constants of `main.go` -/

/-- Layout of the `DayStart` and `DayEnd` fields. -/
def dayFormat : List Char := "2006-01-02".toList

/-- Layout of the date part of an id. -/
def idFormat : List Char := "20060102".toList

/-- Name of the account whose posts are searched. -/
def twitterId : List Char := "shokujinjp".toList

/-- The three search queries, in the order they are tried. -/
def twitterQuery : List (List Char) :=
  ["今週の週替わり定食".toList, "今週の週変わり定食".toList, "#食神週替わり定食".toList]

/-! ## Data model -/

/-- An `error` value, represented by its message. -/
abbrev Error := List Char

/-- Modelled from the spec: the record type `shokujinjp.Menu` is declared in the SDK, outside
this repository; its seven string fields are those of section 3 of the specification, in the
order of the ledger columns. -/
structure Menu where
  Id : List Char := []
  Name : List Char := []
  Price : List Char := []
  Category : List Char := []
  Description : List Char := []
  DayStart : List Char := []
  DayEnd : List Char := []
  deriving Repr, DecidableEq

/-- Modelled from the spec: the type `anaconda.Tweet` is declared in the Twitter client
library; only what `getNewestTweet` reads is kept, the text of the post and the outcome of
`CreatedAtTime()`, which is `none` when the creation time does not parse. -/
structure Tweet where
  Text : List Char := []
  CreatedAtTime : Option Time := none
  deriving Repr, DecidableEq

/-- A string as a sequence of bytes. -/
abbrev Bytes := List UInt8

/-- Bytes of a string of ASCII characters. -/
def ascii (s : String) : Bytes := s.toList.map fun c => UInt8.ofNat c.toNat

/-- What reading the ledger file yields: `os.Open` fails, `ReadAll` fails, or `ReadAll`
returns the parsed records. -/
inductive LedgerFile where
  | openError (err : Error)
  | readError (err : Error)
  | records (rs : List (List Bytes))
  deriving Repr, DecidableEq

/-! ## Functions of `main.go` -/

/-- Go slice expression `xs[n:]`: panics when `n` exceeds the length. -/
def sliceFrom {α : Type} (xs : List α) (n : Nat) : Result (List α) :=
  if n ≤ xs.length then .ret (xs.drop n) else .panic "slice bounds out of range"

/-- Go slice expression `xs[:n]`: panics when `n` exceeds the length. -/
def sliceTo {α : Type} (xs : List α) (n : Nat) : Result (List α) :=
  if n ≤ xs.length then .ret (xs.take n) else .panic "slice bounds out of range"

/-- The verb `%v` of package `fmt` applied to a `[][]string`. -/
def sprintV (xss : List (List (List Char))) : List Char :=
  '[' :: List.intercalate [' '] (xss.map fun xs => '[' :: List.intercalate [' '] xs ++ [']'])
    ++ [']']

/-- The `for` loop of `alreadyDone` over `records[1:]`. -/
def alreadyDoneLoop (day : Bytes) : List (List Bytes) → Result (Bool × Option Error)
  | [] => .ret (false, none)
  | v :: vs =>
    (index v 0).bind fun id =>
    (sliceTo id 8).bind fun key =>
    if day = key then .ret (true, none) else alreadyDoneLoop day vs

/-- The function `alreadyDone`, given what reading `../weekly.csv` yields. -/
def alreadyDone (file : LedgerFile) (day : Bytes) : Result (Bool × Option Error) :=
  match file with
  | .openError err => .ret (false, some err)
  | .readError err => .ret (false, some err)
  | .records records =>
    (sliceFrom records 1).bind fun rows => alreadyDoneLoop day rows

/-- The function `parseOneLine`. -/
def parseOneLine (oneline : List Char) (t : Time) : Result (Menu × Menu × Option Error) :=
  let slice915 := re.FindAllStringSubmatch oneline
  if slice915.length < 2 then
    let errStr := "failed to parse string: ".toList ++ sprintV slice915
    .ret ({}, {}, some errStr)
  else
    (index slice915 0).bind fun m0 =>
    (index m0 2).bind fun name9 =>
    (index m0 3).bind fun price9 =>
    (index slice915 1).bind fun m1 =>
    (index m1 2).bind fun name15 =>
    (index m1 3).bind fun price15 =>
    let menu9 : Menu :=
      { Id := t.Format idFormat ++ "09".toList
        Name := name9
        Price := price9
        Category := "定食".toList
        Description := "週代わり定食9番".toList
        DayStart := t.Format dayFormat
        DayEnd := (t.AddDate 0 0 6).Format dayFormat }
    let menu15 : Menu :=
      { Id := t.Format idFormat ++ "15".toList
        Name := name15
        Price := price15
        Category := "定食".toList
        Description := "週代わり定食15番".toList
        DayStart := t.Format dayFormat
        DayEnd := (t.AddDate 0 0 6).Format dayFormat }
    .ret (menu9, menu15, none)

/-- The `for` loop of `getNewestTweet` over the queries still to be tried, followed by the
final test; `api` answers a search query with an error or with the statuses found. -/
def getNewestTweetLoop (api : List Char → Except Error (List Tweet)) :
    List (List Char) → Tweet → Time → Result (Tweet × Option Error)
  | [], result, _ =>
    if result.Text = "null".toList then .ret ({}, some "missing tweet".toList)
    else .ret (result, none)
  | query :: queries, result, resultTime =>
    let q := query ++ (" from:".toList ++ twitterId)
    match api q with
    | .error err => .ret ({}, some err)
    | .ok statuses =>
      if statuses.length < 1 then getNewestTweetLoop api queries result resultTime
      else
        (index statuses 0).bind fun tweet =>
        match tweet.CreatedAtTime with
        | none => getNewestTweetLoop api queries result resultTime
        | some tweetTime =>
          if result.Text = "null".toList then getNewestTweetLoop api queries tweet resultTime
          else if tweetTime.After resultTime then
            getNewestTweetLoop api queries tweet tweetTime
          else getNewestTweetLoop api queries result resultTime

/-- The function `getNewestTweet`. -/
def getNewestTweet (api : List Char → Except Error (List Tweet)) :
    Result (Tweet × Option Error) :=
  getNewestTweetLoop api twitterQuery { Text := "null".toList } Time.zero

/-! ## The calendar and the date format, as the specification words them -/

/-- Days of a month of the Gregorian calendar: February has 29 days in leap years (years
divisible by 4, except those divisible by 100 and not by 400). -/
def daysIn (year : Int) (month : Nat) : Nat :=
  if month = 2 then
    (if year % 4 = 0 ∧ (year % 100 ≠ 0 ∨ year % 400 = 0) then 29 else 28)
  else if month = 4 ∨ month = 6 ∨ month = 9 ∨ month = 11 then 30
  else 31

/-- The calendar date that follows a date. -/
def nextDay (date : Int × Nat × Nat) : Int × Nat × Nat :=
  if date.2.2 < daysIn date.1 date.2.1 then (date.1, date.2.1, date.2.2 + 1)
  else if date.2.1 < 12 then (date.1, date.2.1 + 1, 1)
  else (date.1 + 1, 1, 1)

/-- The calendar date `n` days after a date. -/
def addDays : Nat → Int × Nat × Nat → Int × Nat × Nat
  | 0, date => date
  | n + 1, date => addDays n (nextDay date)

/-- A date written `YYYY-MM-DD`: year on four digits, month and day on two, zero-padded. -/
def isoDate (date : Int × Nat × Nat) : List Char :=
  appendInt date.1 4 ++ '-' :: (appendInt date.2.1 2 ++ '-' :: appendInt date.2.2 2)

/-- The constant `unixToInternal + internalToAbsolute`: `t.abs()` is
`uint64(unixSec + unixToAbsolute)`, where the Unix seconds `unixSec` of `t` are an `int64`. -/
def unixToAbsolute : Nat := 9223372028715321600

/-- Seconds from the absolute epoch to the instant of `t`, negative before the epoch: the
Unix seconds being an `int64`, the values of `abs` from `2 ^ 63 + unixToAbsolute` on are the
wrapped images of the instants before the epoch. -/
def Time.sinceEpoch (t : Time) : Int :=
  if t.abs < 2 ^ 63 + unixToAbsolute then (t.abs : Int) else (t.abs : Int) - 2 ^ 64

/-- The calendar date that precedes a date. -/
def prevDay (date : Int × Nat × Nat) : Int × Nat × Nat :=
  if 1 < date.2.2 then (date.1, date.2.1, date.2.2 - 1)
  else if 1 < date.2.1 then (date.1, date.2.1 - 1, daysIn date.1 (date.2.1 - 1))
  else (date.1 - 1, 12, 31)

/-- The calendar date `n` days before a date. -/
def subDays : Nat → Int × Nat × Nat → Int × Nat × Nat
  | 0, date => date
  | n + 1, date => subDays n (prevDay date)

/-- The calendar date of the instant of `t`: as many calendar days after January 1 of
`absoluteZeroYear` as whole days have elapsed since the absolute epoch, or as many before it
as days have begun before the epoch. -/
def calendarDate (t : Time) : Int × Nat × Nat :=
  if 0 ≤ t.sinceEpoch then
    addDays (t.sinceEpoch / (secondsPerDay : Int)).toNat (absoluteZeroYear, 1, 1)
  else
    subDays ((-t.sinceEpoch + ((secondsPerDay : Int) - 1)) / (secondsPerDay : Int)).toNat
      (absoluteZeroYear, 1, 1)

/-! ## Reading of the pattern as a scanner

The backtracking run of `re` is equal to a direct left-to-right scanner; the claims about
names and prices are read off the scanner. -/

/-- Price at the head of `s`: the maximal run of digits, when it is non-empty and followed
by `円`; returns the run and what follows the `円`. -/
def priceAt (s : List Char) : Option (List Char × List Char) :=
  if s.takeWhile isDigit ≠ [] ∧ (s.dropWhile isDigit).head? = some '円' then
    some (s.takeWhile isDigit, (s.dropWhile isDigit).tail)
  else none

/-- Shortest name: scans over non-newline characters until a price starts; returns the
name, the price and the input after the `円`. -/
def nameScan : List Char → Option (List Char × List Char × List Char)
  | [] => none
  | x :: xs =>
    match priceAt (x :: xs) with
    | some (p, r) => some ([], p, r)
    | none =>
      if x ≠ '\n' then
        match nameScan xs with
        | some (n, p, r) => some (x :: n, p, r)
        | none => none
      else none

/-- Submatches of an entry with slot text `slot`, read after the slot's period. -/
def entryAfter (slot s : List Char) : Option (Caps × List Char) :=
  match nameScan s with
  | some (n, p, r) => some ([slot ++ '.' :: (n ++ p ++ ['円']), slot, n, p], r)
  | none => none

/-- Entry at the head of `s`: slot `9` or `15`, a period, then name, price and `円`. -/
def entryAt (s : List Char) : Option (Caps × List Char) :=
  match s with
  | a :: b :: s2 =>
    if a = '9' then (if b = '.' then entryAfter ['9'] s2 else none)
    else if a = '1' ∧ b = '5' then
      match s2 with
      | c :: s3 => if c = '.' then entryAfter ['1', '5'] s3 else none
      | [] => none
    else none
  | _ => none

/-- The lazy loop over `.` as a recursion on the input. -/
def lazyDot {α : Type} (k : List Char → Caps → Option α) : List Char → Caps → Option α
  | [], caps => k [] caps
  | x :: xs, caps => orElse (k (x :: xs) caps) (if x ≠ '\n' then lazyDot k xs caps else none)

/-- The greedy loop over `\d` as a recursion on the input. -/
def greedyDigit {α : Type} (k : List Char → Caps → Option α) : List Char → Caps → Option α
  | [], caps => k [] caps
  | x :: xs, caps => orElse (if isDigit x then greedyDigit k xs caps else none) (k (x :: xs) caps)

/-- The menus built from the reference time and the names and prices of two matches. -/
def menusOf (t : Time) (name9 price9 name15 price15 : List Char) : Menu × Menu :=
  ({ Id := t.Format idFormat ++ "09".toList
     Name := name9
     Price := price9
     Category := "定食".toList
     Description := "週代わり定食9番".toList
     DayStart := t.Format dayFormat
     DayEnd := (t.AddDate 0 0 6).Format dayFormat },
   { Id := t.Format idFormat ++ "15".toList
     Name := name15
     Price := price15
     Category := "定食".toList
     Description := "週代わり定食15番".toList
     DayStart := t.Format dayFormat
     DayEnd := (t.AddDate 0 0 6).Format dayFormat })

/-! ## Auxiliary definitions for the calendar proofs -/

/-- First half of `absDate`: years since the absolute epoch and day within the year. -/
def absYearDay (d : Nat) : Nat × Nat :=
  let n400 := d / daysPer400Years
  let d1 := d - daysPer400Years * n400
  let n100 := d1 / daysPer100Years
  let n100 := n100 - n100 / 4
  let d2 := d1 - daysPer100Years * n100
  let n4 := d2 / daysPer4Years
  let d3 := d2 - daysPer4Years * n4
  let n := d3 / 365
  let n := n - n / 4
  (400 * n400 + 100 * n100 + 4 * n4 + n, d3 - 365 * n)

/-- Second half of `absDate`: month and day of the month from the day within the year. -/
def monthDay (leap : Bool) (yday : Nat) : Nat × Nat :=
  if leap && decide (yday = 31 + 29 - 1) then (2, 29)
  else
    let day := if leap && decide (yday > 31 + 29 - 1) then yday - 1 else yday
    let month := day / 31
    let e := daysBefore.getD (month + 1) 0
    if day ≥ e then (month + 2, day - e + 1)
    else (month + 1, day - daysBefore.getD month 0 + 1)

/-- Leap years in years counted from the absolute epoch. -/
def leapY (y : Nat) : Bool :=
  decide (y % 4 = 3) && (decide (y % 100 ≠ 99) || decide (y % 400 = 399))

/-- Length of a year. -/
def yearLen (y : Nat) : Nat := if leapY y then 366 else 365

/-- The stages of `absYearDay`, one variable per intermediate value. -/
def YearDayStages (d a r1 b b1 r2 c r3 n n1 y yd : Nat) : Prop :=
  a = d / 146097 ∧ r1 = d - 146097 * a ∧ b = r1 / 36524 ∧ b1 = b - b / 4 ∧
  r2 = r1 - 36524 * b1 ∧ c = r2 / 1461 ∧ r3 = r2 - 1461 * c ∧ n = r3 / 365 ∧
  n1 = n - n / 4 ∧ y = 400 * a + 100 * b1 + 4 * c + n1 ∧ yd = r3 - 365 * n1

/-- Days from the absolute epoch to the start of year `y` counted from the epoch. -/
def dse (y : Nat) : Nat :=
  146097 * (y / 400) + 36524 * (y % 400 / 100) + 1461 * (y % 100 / 4) + 365 * (y % 4)

/-- Days of a month, given whether the year is a leap year. -/
def monthLen (leap : Bool) (month : Nat) : Nat :=
  if month = 2 then (if leap then 29 else 28)
  else if month = 4 ∨ month = 6 ∨ month = 9 ∨ month = 11 then 30
  else 31

/-! ## A reference time before the absolute epoch -/

/-- The time 400 days before the absolute epoch, at 00:00:00 UTC: its Unix seconds are
`-9223372028749881600`, and `abs` wraps around to `2 ^ 64 - 400 * 86400`. -/
def beforeEpoch : Time := ⟨2 ^ 64 - 400 * 86400⟩

/-! ## An answer of the search service -/

/-- Answers of the search used against C9: the first query finds post `A` created on
2024-03-04 at noon, the second finds post `B` created a day earlier, the third finds
nothing. -/
def searchNewerFirst : List Char → Except Error (List Tweet) := fun q =>
  if q = "今週の週替わり定食 from:shokujinjp".toList then
    .ok [{ Text := "A".toList, CreatedAtTime := some (Date 2024 3 4 12 0 0) }]
  else if q = "今週の週変わり定食 from:shokujinjp".toList then
    .ok [{ Text := "B".toList, CreatedAtTime := some (Date 2024 3 3 12 0 0) }]
  else .ok []

/-! ## Lemmas on the matcher -/

section Matcher

variable {α : Type}

@[simp] theorem orElse_some (r : α) (b : Option α) : orElse (some r) b = some r := rfl

@[simp] theorem orElse_none_left (b : Option α) : orElse none b = b := rfl

@[simp] theorem orElse_none_right (a : Option α) : orElse a none = a := by
  cases a <;> rfl

theorem starLoop_lazy_dot (k : List Char → Caps → Option α) :
    ∀ (fuel : Nat) (s : List Char) (caps : Caps), s.length ≤ fuel →
      starLoop (fun s1 c1 k1 => Regex.matchK .anyNotNL s1 c1 k1) false fuel s caps k
        = lazyDot k s caps := by
  intro fuel
  induction fuel with
  | zero =>
    intro s caps h
    have hs : s = [] := List.eq_nil_of_length_eq_zero (Nat.le_zero.mp h)
    subst hs
    simp [starLoop, lazyDot]
  | succ n ih =>
    intro s caps h
    cases s with
    | nil => simp [starLoop, lazyDot, Regex.matchK]
    | cons x xs =>
      have hx : xs.length ≤ n := by simpa using h
      have ih1 := ih xs caps hx
      simp [Regex.matchK] at ih1
      simp [starLoop, lazyDot, Regex.matchK, ih1]

theorem starLoop_greedy_digit (k : List Char → Caps → Option α) :
    ∀ (fuel : Nat) (s : List Char) (caps : Caps), s.length ≤ fuel →
      starLoop (fun s1 c1 k1 => Regex.matchK .digit s1 c1 k1) true fuel s caps k
        = greedyDigit k s caps := by
  intro fuel
  induction fuel with
  | zero =>
    intro s caps h
    have hs : s = [] := List.eq_nil_of_length_eq_zero (Nat.le_zero.mp h)
    subst hs
    simp [starLoop, greedyDigit]
  | succ n ih =>
    intro s caps h
    cases s with
    | nil => simp [starLoop, greedyDigit, Regex.matchK]
    | cons x xs =>
      have hx : xs.length ≤ n := by simpa using h
      have ih1 := ih xs caps hx
      simp only [Regex.matchK] at ih1
      simp [starLoop, greedyDigit, Regex.matchK, ih1]

theorem take_length_sub_dropWhile (p : Char → Bool) (l : List Char) :
    l.take (l.length - (l.dropWhile p).length) = l.takeWhile p := by
  have h := List.takeWhile_append_dropWhile p l
  have hl := congrArg List.length h
  simp only [List.length_append] at hl
  have h2 : l.length - (l.dropWhile p).length = (l.takeWhile p).length := by omega
  have h3 : (l.takeWhile p ++ l.dropWhile p).take (l.takeWhile p).length = l.takeWhile p :=
    List.take_left' rfl
  rw [h] at h3
  rw [h2, h3]

theorem greedyDigit_eq (k : List Char → Caps → Option α)
    (hk : ∀ d s c, isDigit d = true → k (d :: s) c = none) (c : Caps) :
    ∀ s : List Char, greedyDigit k s c = k (s.dropWhile isDigit) c := by
  intro s
  induction s with
  | nil => simp [greedyDigit]
  | cons x xs ih =>
    by_cases hx : isDigit x = true
    · simp [greedyDigit, hx, ih, hk x xs c hx]
    · simp [greedyDigit, hx]

theorem isDigit_ne_yen (d : Char) (h : isDigit d = true) : d ≠ '円' := by
  intro e
  subst e
  revert h
  decide

/-- The group `(\d+)` followed by `円`: the maximal digit run, then the marker. -/
theorem matchK_price (K : List Char → Caps → Option α) (s : List Char) (c : Caps) :
    Regex.matchK (.cat (.group 3 (.plus true .digit)) (.char '円')) s c K
      = if s.takeWhile isDigit ≠ [] ∧ (s.dropWhile isDigit).head? = some '円' then
          K (s.dropWhile isDigit).tail (c.set 3 (s.takeWhile isDigit))
        else none := by
  cases s with
  | nil => simp [Regex.matchK]
  | cons x xs =>
    by_cases hx : isDigit x = true
    · have hg := starLoop_greedy_digit
        (fun s1 caps1 => Regex.matchK (.char '円') s1
          (caps1.set 3 ((x :: xs).take ((x :: xs).length - s1.length))) K)
        xs.length xs c (Nat.le_refl _)
      have he := greedyDigit_eq
        (fun s1 caps1 => Regex.matchK (.char '円') s1
          (caps1.set 3 ((x :: xs).take ((x :: xs).length - s1.length))) K)
        (by
          intro d s1 c1 hd
          simp [Regex.matchK, isDigit_ne_yen d hd]) c xs
      have ht := take_length_sub_dropWhile isDigit (x :: xs)
      simp only [List.dropWhile_cons, hx, if_true, List.takeWhile_cons] at ht
      simp only [Regex.matchK, hx, if_true]
      simp only [Regex.matchK] at hg he
      rw [hg, he, ht]
      simp only [List.dropWhile_cons, hx, if_true, List.takeWhile_cons]
      cases hd : xs.dropWhile isDigit with
      | nil => simp
      | cons y ys =>
        by_cases hy : y = '円'
        · simp [hy]
        · simp [hy]
    · simp [Regex.matchK, hx]

/-- The lazy name loop followed by the price: the first position where a price starts. -/
theorem lazyDot_name {β : Type} (F : List Char → Caps → β) (c : Caps) :
    ∀ (s pre : List Char),
      lazyDot (fun s1 c1 =>
          Regex.matchK (.cat (.group 3 (.plus true .digit)) (.char '円')) s1
            (c1.set 2 ((pre ++ s).take ((pre ++ s).length - s1.length)))
            (fun r c2 => some (F r c2))) s c
        = match nameScan s with
          | some (n, p, r) => some (F r ((c.set 2 (pre ++ n)).set 3 p))
          | none => none := by
  intro s
  induction s with
  | nil =>
    intro pre
    simp [lazyDot, matchK_price, nameScan]
  | cons x xs ih =>
    intro pre
    have hpre : pre ++ x :: xs = (pre ++ [x]) ++ xs := by simp
    have ih1 := ih (pre ++ [x])
    rw [← hpre] at ih1
    have htake : (pre ++ x :: xs).take ((pre ++ x :: xs).length - (x :: xs).length) = pre := by
      simp
    simp only [lazyDot, ih1, htake]
    simp only [matchK_price, nameScan, priceAt]
    by_cases hp : (x :: xs).takeWhile isDigit ≠ [] ∧
        ((x :: xs).dropWhile isDigit).head? = some '円'
    · rw [if_pos hp, if_pos hp]
      simp
    · rw [if_neg hp, if_neg hp]
      simp only [orElse_none_left]
      by_cases hx : x = '\n'
      · simp [hx]
      · simp only [ne_eq, hx, not_false_eq_true, if_true]
        cases nameScan xs with
        | none => rfl
        | some v =>
          obtain ⟨n, q, r⟩ := v
          simp

theorem priceAt_eq_some {s p r : List Char} (h : priceAt s = some (p, r)) :
    s = p ++ '円' :: r ∧ p ≠ [] ∧ (∀ d ∈ p, isDigit d = true) ∧
      p = s.takeWhile isDigit := by
  unfold priceAt at h
  split at h
  · rename_i hc
    simp only [Option.some.injEq, Prod.mk.injEq] at h
    obtain ⟨hp, hr⟩ := h
    have hsplit := List.takeWhile_append_dropWhile isDigit s
    cases hd : s.dropWhile isDigit with
    | nil => simp [hd] at hc
    | cons y ys =>
      rw [hd] at hc hr hsplit
      simp only [List.head?_cons, Option.some.injEq, List.tail_cons] at hc hr
      refine ⟨?_, ?_, ?_, hp.symm⟩
      · rw [← hp, ← hr, ← hc.2]
        exact hsplit.symm
      · rw [← hp]
        exact hc.1
      · intro d hdm
        rw [← hp] at hdm
        exact (List.mem_takeWhile_imp hdm)
  · cases h

theorem priceAt_digits {p : List Char} (r : List Char) (hne : p ≠ [])
    (hd : ∀ d ∈ p, isDigit d = true) : priceAt (p ++ '円' :: r) = some (p, r) := by
  have ht : ∀ q : List Char, (∀ d ∈ q, isDigit d = true) →
      (q ++ '円' :: r).takeWhile isDigit = q ∧ (q ++ '円' :: r).dropWhile isDigit = '円' :: r := by
    intro q
    induction q with
    | nil =>
      intro _
      have h : isDigit '円' = false := by decide
      simp [List.takeWhile, List.dropWhile, h]
    | cons x xs ih =>
      intro hq
      have hx : isDigit x = true := hq x (List.mem_cons_self _ _)
      have hxs := ih (fun d hdm => hq d (List.mem_cons_of_mem _ hdm))
      simp [List.takeWhile, List.dropWhile, hx, hxs.1, hxs.2]
  obtain ⟨h1, h2⟩ := ht p hd
  simp [priceAt, h1, h2, hne]

theorem priceAt_nondigit {x : Char} (xs : List Char) (hx : isDigit x = false) :
    priceAt (x :: xs) = none := by
  simp [priceAt, List.takeWhile, hx]

/-- What a successful scan says about the input: it splits into name, price, `円` and the
rest; the name has no newline; the price is a non-empty run of digits; and no proper suffix
of the name could have started the price earlier. -/
theorem nameScan_eq_some : ∀ {s n p r : List Char}, nameScan s = some (n, p, r) →
    s = n ++ p ++ '円' :: r ∧ (∀ c ∈ n, c ≠ '\n') ∧ p ≠ [] ∧ (∀ d ∈ p, isDigit d = true) ∧
      (∀ n1 n2 : List Char, n = n1 ++ n2 → n2 ≠ [] → priceAt (n2 ++ p ++ '円' :: r) = none) := by
  intro s
  induction s with
  | nil =>
    intro n p r h
    simp [nameScan] at h
  | cons x xs ih =>
    intro n p r h
    simp only [nameScan] at h
    cases hp : priceAt (x :: xs) with
    | some v =>
      obtain ⟨q, r1⟩ := v
      rw [hp] at h
      simp only [Option.some.injEq, Prod.mk.injEq] at h
      obtain ⟨hn, hq, hr⟩ := h
      subst hn hq hr
      obtain ⟨h1, h2, h3, _⟩ := priceAt_eq_some hp
      refine ⟨by simpa using h1, by simp, h2, h3, ?_⟩
      intro n1 n2 hsplit hne
      have : n2 = [] := by
        have := congrArg List.length hsplit
        simp at this
        exact List.eq_nil_of_length_eq_zero (by omega)
      exact absurd this hne
    | none =>
      rw [hp] at h
      by_cases hx : x = '\n'
      · simp [hx] at h
      · simp only [ne_eq, hx, not_false_eq_true, if_true] at h
        cases hn : nameScan xs with
        | none => simp [hn] at h
        | some v =>
          obtain ⟨n0, q, r1⟩ := v
          rw [hn] at h
          simp only [Option.some.injEq, Prod.mk.injEq] at h
          obtain ⟨hn1, hq, hr⟩ := h
          subst hn1 hq hr
          obtain ⟨h1, h2, h3, h4, h5⟩ := ih hn
          refine ⟨by simp [h1], ?_, h3, h4, ?_⟩
          · intro c hc
            rcases List.mem_cons.mp hc with e | e
            · rw [e]; exact hx
            · exact h2 c e
          · intro n1 n2 hsplit hne
            cases n1 with
            | nil =>
              simp only [List.nil_append] at hsplit
              rw [← hsplit]
              simp only [List.cons_append]
              rw [h1] at hp
              simpa using hp
            | cons y ys =>
              simp only [List.cons_append, List.cons.injEq] at hsplit
              exact h5 ys n2 hsplit.2 hne

/-- A name free of digits and newlines, followed by a price, scans to exactly that name and
price. -/
theorem nameScan_clean (p r : List Char) (hne : p ≠ []) (hd : ∀ d ∈ p, isDigit d = true) :
    ∀ n : List Char, (∀ c ∈ n, isDigit c = false ∧ c ≠ '\n') →
      nameScan (n ++ p ++ '円' :: r) = some (n, p, r) := by
  intro n
  induction n with
  | nil =>
    intro _
    cases p with
    | nil => exact absurd rfl hne
    | cons d ds =>
      have h := priceAt_digits r hne hd
      simp only [List.nil_append, List.cons_append] at h ⊢
      simp [nameScan, h]
  | cons x xs ih =>
    intro hn
    have hx := hn x (List.mem_cons_self _ _)
    have hxs := ih (fun c hc => hn c (List.mem_cons_of_mem _ hc))
    simp only [List.cons_append]
    simp only [List.append_assoc] at hxs
    simp [nameScan, priceAt_nondigit _ hx.1, hx.2, hxs]

theorem matchK_cat (r1 r2 : Regex) (s : List Char) (c : Caps)
    (k : List Char → Caps → Option α) :
    Regex.matchK (.cat r1 r2) s c k
      = Regex.matchK r1 s c (fun s1 c1 => Regex.matchK r2 s1 c1 k) := by
  simp only [Regex.matchK]

theorem matchK_group (i : Nat) (r : Regex) (s : List Char) (c : Caps)
    (k : List Char → Caps → Option α) :
    Regex.matchK (.group i r) s c k
      = Regex.matchK r s c (fun s1 c1 => k s1 (c1.set i (s.take (s.length - s1.length)))) := by
  simp only [Regex.matchK]

theorem matchK_star (g : Bool) (r : Regex) (s : List Char) (c : Caps)
    (k : List Char → Caps → Option α) :
    Regex.matchK (.star g r) s c k
      = starLoop (fun s1 c1 k1 => Regex.matchK r s1 c1 k1) g s.length s c k := by
  simp only [Regex.matchK]

/-- Name and price groups followed by `円`, run on `s`: the scanner `nameScan`. -/
theorem matchK_name {β : Type} (F : List Char → Caps → β) (s : List Char) (c : Caps) :
    Regex.matchK (.cat (.group 2 (.star false .anyNotNL))
        (.cat (.group 3 (.plus true .digit)) (.char '円'))) s c (fun r c2 => some (F r c2))
      = match nameScan s with
        | some (n, p, r) => some (F r ((c.set 2 n).set 3 p))
        | none => none := by
  have h := lazyDot_name F c s []
  simp only [List.nil_append] at h
  rw [matchK_cat, matchK_group]
  rw [matchK_star, starLoop_lazy_dot _ _ _ _ (Nat.le_refl _)]
  exact h

theorem re_numSubexp : re.numSubexp = 3 := by decide

theorem matchK_char (a : Char) (s : List Char) (c : Caps)
    (k : List Char → Caps → Option α) :
    Regex.matchK (.char a) s c k
      = match s with
        | x :: xs => if x = a then k xs c else none
        | [] => none := by
  simp only [Regex.matchK]

theorem matchK_alt (r1 r2 : Regex) (s : List Char) (c : Caps)
    (k : List Char → Caps → Option α) :
    Regex.matchK (.alt r1 r2) s c k
      = orElse (Regex.matchK r1 s c k) (Regex.matchK r2 s c k) := by
  simp only [Regex.matchK]

/-- What follows the slot group: the period, then name, price and `円`; the whole match is
cut out of the input `s0` the match started in. -/
theorem matchK_after_slot (s0 s1 : List Char) (c : Caps) :
    Regex.matchK (.cat (.char '.') (.cat (.group 2 (.star false .anyNotNL))
        (.cat (.group 3 (.plus true .digit)) (.char '円')))) s1 c
        (fun r caps => some (caps.set 0 (s0.take (s0.length - r.length)), r))
      = match s1 with
        | y :: s2 =>
          if y = '.' then
            match nameScan s2 with
            | some (n, p, r) =>
              some (((c.set 2 n).set 3 p).set 0 (s0.take (s0.length - r.length)), r)
            | none => none
          else none
        | [] => none := by
  rw [matchK_cat, matchK_char]
  cases s1 with
  | nil => rfl
  | cons y s2 =>
    simp only
    by_cases hy : y = '.'
    · rw [if_pos hy, if_pos hy]
      exact matchK_name (fun r caps => (caps.set 0 (s0.take (s0.length - r.length)), r)) s2 c
    · rw [if_neg hy, if_neg hy]

theorem take_whole_match (pre n p r : List Char) :
    (pre ++ (n ++ p ++ '円' :: r)).take ((pre ++ (n ++ p ++ '円' :: r)).length - r.length)
      = pre ++ (n ++ p ++ ['円']) := by
  have h : pre ++ (n ++ p ++ '円' :: r) = (pre ++ (n ++ p ++ ['円'])) ++ r := by simp
  rw [h]
  have hl : ((pre ++ (n ++ p ++ ['円'])) ++ r).length - r.length
      = (pre ++ (n ++ p ++ ['円'])).length := by
    simp only [List.length_append]
    omega
  rw [hl]
  exact List.take_left' rfl

/-- The anchored match of `re` is the scanner `entryAt`. -/
theorem matchAt_re (s : List Char) : re.matchAt s = entryAt s := by
  unfold Regex.matchAt
  rw [re_numSubexp]
  unfold re
  rw [matchK_cat, matchK_group, matchK_alt, matchK_cat, matchK_char, matchK_char]
  simp only [matchK_after_slot, matchK_char]
  cases s with
  | nil => rfl
  | cons a t =>
    cases t with
    | nil =>
      by_cases ha : a = '9'
      · subst ha
        simp [entryAt]
      · by_cases h1 : a = '1'
        · subst h1
          simp [entryAt]
        · simp [entryAt, ha, h1]
    | cons b s2 =>
      by_cases ha : a = '9'
      · subst ha
        by_cases hb : b = '.'
        · subst hb
          simp only [entryAt, entryAfter]
          cases hn : nameScan s2 with
          | none => simp
          | some v =>
            obtain ⟨n, p, r⟩ := v
            have hs := (nameScan_eq_some hn).1
            have ht := take_whole_match ['9', '.'] n p r
            rw [← hs] at ht
            simp only [List.cons_append, List.nil_append] at ht
            simp only [if_true, orElse_some, List.replicate, List.set, ht]
            simp
        · simp [entryAt, hb]
      · by_cases hab : a = '1' ∧ b = '5'
        · obtain ⟨h1, h5⟩ := hab
          subst h1 h5
          cases s2 with
          | nil => simp [entryAt]
          | cons c s3 =>
            by_cases hc : c = '.'
            · subst hc
              simp only [entryAt, entryAfter]
              cases hn : nameScan s3 with
              | none => simp
              | some v =>
                obtain ⟨n, p, r⟩ := v
                have hs := (nameScan_eq_some hn).1
                have ht := take_whole_match ['1', '5', '.'] n p r
                rw [← hs] at ht
                simp only [List.cons_append, List.nil_append] at ht
                simp only [if_true, orElse_some, List.replicate, List.set, ht]
                simp
            · simp [entryAt, hc]
        · have hab1 : a = '1' → ¬ b = '5' := fun h1 h5 => hab ⟨h1, h5⟩
          by_cases h1 : a = '1'
          · subst h1
            simp [entryAt, hab1 rfl]
          · simp [entryAt, ha, h1]

theorem entryAfter_eq_some {slot s : List Char} {m : Caps} {rest : List Char}
    (h : entryAfter slot s = some (m, rest)) :
    ∃ n p, s = n ++ p ++ '円' :: rest ∧ m = [slot ++ '.' :: (n ++ p ++ ['円']), slot, n, p] ∧
      nameScan s = some (n, p, rest) := by
  unfold entryAfter at h
  cases hn : nameScan s with
  | none => simp [hn] at h
  | some v =>
    obtain ⟨n, p, r⟩ := v
    rw [hn] at h
    simp only [Option.some.injEq, Prod.mk.injEq] at h
    obtain ⟨hm, hr⟩ := h
    subst hr
    exact ⟨n, p, (nameScan_eq_some hn).1, hm.symm, rfl⟩

/-- Shape of an entry: slot text, period, name, price, `円`, and the four submatches. -/
theorem entryAt_eq_some {s : List Char} {m : Caps} {rest : List Char}
    (h : entryAt s = some (m, rest)) :
    ∃ slot n p, (slot = ['9'] ∨ slot = ['1', '5']) ∧
      s = slot ++ '.' :: (n ++ p ++ '円' :: rest) ∧
      m = [slot ++ '.' :: (n ++ p ++ ['円']), slot, n, p] ∧
      nameScan (n ++ p ++ '円' :: rest) = some (n, p, rest) := by
  unfold entryAt at h
  split at h
  · rename_i a b s2
    split at h
    · rename_i ha
      split at h
      · rename_i hb
        obtain ⟨n, p, h1, h2, h3⟩ := entryAfter_eq_some h
        refine ⟨['9'], n, p, Or.inl rfl, ?_, h2, ?_⟩
        · rw [ha, hb, h1]; rfl
        · rw [← h1]; exact h3
      · cases h
    · split at h
      · rename_i hab
        split at h
        · rename_i c s3
          split at h
          · rename_i hc
            obtain ⟨n, p, h1, h2, h3⟩ := entryAfter_eq_some h
            refine ⟨['1', '5'], n, p, Or.inr rfl, ?_, h2, ?_⟩
            · rw [hab.1, hab.2, hc, h1]; rfl
            · rw [← h1]; exact h3
          · cases h
        · cases h
      · cases h
  · cases h

theorem find_re_nil : re.find [] = none := by
  simp [Regex.find, matchAt_re, entryAt]

theorem find_re_cons (c : Char) (cs : List Char) :
    re.find (c :: cs) = match entryAt (c :: cs) with
      | some m => some m
      | none => re.find cs := by
  simp [Regex.find, matchAt_re]

/-- The leftmost match is an entry at some position of the input. -/
theorem find_re_eq_some : ∀ {s : List Char} {m : Caps} {rest : List Char},
    re.find s = some (m, rest) →
      ∃ pre t, s = pre ++ t ∧ entryAt t = some (m, rest) := by
  intro s
  induction s with
  | nil =>
    intro m rest h
    simp [find_re_nil] at h
  | cons c cs ih =>
    intro m rest h
    rw [find_re_cons] at h
    cases he : entryAt (c :: cs) with
    | some v =>
      rw [he] at h
      simp only [Option.some.injEq] at h
      subst h
      exact ⟨[], c :: cs, rfl, he⟩
    | none =>
      rw [he] at h
      obtain ⟨pre, t, h1, h2⟩ := ih h
      exact ⟨c :: pre, t, by simp [h1], h2⟩

theorem find_re_length {s : List Char} {m : Caps} {rest : List Char}
    (h : re.find s = some (m, rest)) : rest.length < s.length := by
  obtain ⟨pre, t, h1, h2⟩ := find_re_eq_some h
  obtain ⟨slot, n, p, _, h3, _, _⟩ := entryAt_eq_some h2
  rw [h1, h3]
  simp only [List.length_append, List.length_cons]
  omega

/-- The loop of `allMatches` does not depend on the fuel once it exceeds the length of the
input, nor on `prevAtPos`, since a match of `re` is never empty. -/
theorem allMatches_re_indep : ∀ (n : Nat) (s : List Char), s.length < n →
    ∀ (f1 f2 : Nat) (b1 b2 : Bool), s.length < f1 → s.length < f2 →
      re.allMatches f1 b1 s = re.allMatches f2 b2 s := by
  intro n
  induction n with
  | zero =>
    intro s h
    exact absurd h (Nat.not_lt_zero _)
  | succ n ih =>
    intro s hs f1 f2 b1 b2 h1 h2
    cases f1 with
    | zero => exact absurd h1 (Nat.not_lt_zero _)
    | succ g1 =>
      cases f2 with
      | zero => exact absurd h2 (Nat.not_lt_zero _)
      | succ g2 =>
        simp only [Regex.allMatches]
        cases hf : re.find s with
        | none => rfl
        | some v =>
          obtain ⟨m, rest⟩ := v
          have hl := find_re_length hf
          have hne : ¬ rest.length = s.length := by omega
          simp only [hne, if_false]
          rw [ih rest (by omega) g1 g2 true true (by omega) (by omega)]

/-- The matches of `re` in `s`: the leftmost entry, then the matches in what follows it. -/
theorem FindAll_re (s : List Char) :
    re.FindAllStringSubmatch s = match re.find s with
      | none => []
      | some (m, rest) => m :: re.FindAllStringSubmatch rest := by
  cases hf : re.find s with
  | none => simp [Regex.FindAllStringSubmatch, Regex.allMatches, hf]
  | some v =>
    obtain ⟨m, rest⟩ := v
    have hl := find_re_length hf
    have hne : ¬ rest.length = s.length := by omega
    show re.allMatches (s.length + 1) false s = m :: re.allMatches (rest.length + 1) false rest
    calc re.allMatches (s.length + 1) false s
        = m :: re.allMatches s.length true rest := by
          simp only [Regex.allMatches, hf, hne, if_false]
      _ = m :: re.allMatches (rest.length + 1) false rest := by
          rw [allMatches_re_indep (s.length + 1) rest (by omega) s.length (rest.length + 1)
            true false (by omega) (by omega)]

/-- A first match of `FindAllStringSubmatch` is an entry somewhere in the input, and the
other matches are those of the input after it. -/
theorem FindAll_re_cons {s : List Char} {m : Caps} {ms : List Caps}
    (h : re.FindAllStringSubmatch s = m :: ms) :
    ∃ pre t rest, s = pre ++ t ∧ entryAt t = some (m, rest) ∧
      ms = re.FindAllStringSubmatch rest := by
  rw [FindAll_re] at h
  cases hf : re.find s with
  | none => simp [hf] at h
  | some v =>
    obtain ⟨m1, rest⟩ := v
    rw [hf] at h
    simp only [List.cons.injEq] at h
    obtain ⟨hm, hms⟩ := h
    subst hm
    obtain ⟨pre, t, h1, h2⟩ := find_re_eq_some hf
    exact ⟨pre, t, rest, h1, h2, hms.symm⟩

/-- With two matches or more, `parseOneLine` returns the menus of the first two. -/
theorem parseOneLine_of_matches {text : List Char} (t : Time) {m0 m1 : Caps} {ms : List Caps}
    (h : re.FindAllStringSubmatch text = m0 :: m1 :: ms) :
    ∃ f0 s0 n0 p0 f1 s1 n1 p1, m0 = [f0, s0, n0, p0] ∧ m1 = [f1, s1, n1, p1] ∧
      parseOneLine text t = .ret ((menusOf t n0 p0 n1 p1).1, (menusOf t n0 p0 n1 p1).2, none) := by
  obtain ⟨pre0, t0, rest0, _, he0, hms⟩ := FindAll_re_cons h
  obtain ⟨pre1, t1, rest1, _, he1, _⟩ := FindAll_re_cons hms.symm
  obtain ⟨slot0, n0, p0, _, _, hm0, _⟩ := entryAt_eq_some he0
  obtain ⟨slot1, n1, p1, _, _, hm1, _⟩ := entryAt_eq_some he1
  refine ⟨_, slot0, n0, p0, _, slot1, n1, p1, hm0, hm1, ?_⟩
  unfold parseOneLine
  rw [h, hm0, hm1]
  simp [index, Result.bind, menusOf]

/-- With two matches or more, `parseOneLine` returns two menus and no error. -/
theorem parseOneLine_two_or_more (text : List Char) (t : Time)
    (h : 2 ≤ (re.FindAllStringSubmatch text).length) :
    ∃ menu9 menu15, parseOneLine text t = .ret (menu9, menu15, none) := by
  cases hall : re.FindAllStringSubmatch text with
  | nil => simp [hall] at h
  | cons m0 l =>
    cases l with
    | nil => simp [hall] at h
    | cons m1 ms =>
      obtain ⟨_, _, n0, p0, _, _, n1, p1, _, _, hp⟩ := parseOneLine_of_matches t hall
      exact ⟨_, _, hp⟩

/-- When `parseOneLine` succeeds there were two matches, each an entry of the text, the
second in what follows the first, and the menus are built from them. -/
theorem parseOneLine_ok {text : List Char} {t : Time} {menu9 menu15 : Menu}
    (h : parseOneLine text t = .ret (menu9, menu15, none)) :
    ∃ pre0 t0 rest0 pre1 t1 rest1 m0 m1 n0 p0 n1 p1,
      text = pre0 ++ t0 ∧ entryAt t0 = some (m0, rest0) ∧
      rest0 = pre1 ++ t1 ∧ entryAt t1 = some (m1, rest1) ∧
      m0.get? 2 = some n0 ∧ m0.get? 3 = some p0 ∧ m1.get? 2 = some n1 ∧ m1.get? 3 = some p1 ∧
      menu9 = (menusOf t n0 p0 n1 p1).1 ∧ menu15 = (menusOf t n0 p0 n1 p1).2 := by
  cases hall : re.FindAllStringSubmatch text with
  | nil => simp [parseOneLine, hall] at h
  | cons m0 l =>
    cases l with
    | nil => simp [parseOneLine, hall] at h
    | cons m1 ms =>
      obtain ⟨f0, s0, n0, p0, f1, s1, n1, p1, hm0, hm1, hp⟩ := parseOneLine_of_matches t hall
      rw [hp] at h
      simp only [Result.ret.injEq, Prod.mk.injEq, and_true] at h
      obtain ⟨pre0, t0, rest0, h1, he0, hms⟩ := FindAll_re_cons hall
      obtain ⟨pre1, t1, rest1, h2, he1, _⟩ := FindAll_re_cons hms.symm
      exact ⟨pre0, t0, rest0, pre1, t1, rest1, m0, m1, n0, p0, n1, p1, h1, he0, h2, he1,
        by simp [hm0], by simp [hm0], by simp [hm1], by simp [hm1], h.1.symm, h.2.symm⟩

theorem entryAt_clean_9 (n p r : List Char) (hn : ∀ c ∈ n, isDigit c = false ∧ c ≠ '\n')
    (hne : p ≠ []) (hd : ∀ d ∈ p, isDigit d = true) :
    entryAt ('9' :: '.' :: (n ++ p ++ '円' :: r))
      = some ([['9'] ++ '.' :: (n ++ p ++ ['円']), ['9'], n, p], r) := by
  have h := nameScan_clean p r hne hd n hn
  simp only [List.append_assoc] at h
  simp [entryAt, entryAfter, h]

theorem entryAt_clean_15 (n p r : List Char) (hn : ∀ c ∈ n, isDigit c = false ∧ c ≠ '\n')
    (hne : p ≠ []) (hd : ∀ d ∈ p, isDigit d = true) :
    entryAt ('1' :: '5' :: '.' :: (n ++ p ++ '円' :: r))
      = some ([['1', '5'] ++ '.' :: (n ++ p ++ ['円']), ['1', '5'], n, p], r) := by
  have h := nameScan_clean p r hne hd n hn
  simp only [List.append_assoc] at h
  simp [entryAt, entryAfter, h]

/-- The two matches of a text made of a clean slot-9 entry followed by a clean slot-15
entry. -/
theorem FindAll_clean (n1 n2 p1 p2 : List Char)
    (hn1 : ∀ c ∈ n1, isDigit c = false ∧ c ≠ '\n')
    (hn2 : ∀ c ∈ n2, isDigit c = false ∧ c ≠ '\n')
    (hp1 : p1 ≠ [] ∧ ∀ d ∈ p1, isDigit d = true)
    (hp2 : p2 ≠ [] ∧ ∀ d ∈ p2, isDigit d = true) :
    re.FindAllStringSubmatch
        ("9.".toList ++ n1 ++ p1 ++ "円15.".toList ++ n2 ++ p2 ++ "円".toList)
      = [[['9'] ++ '.' :: (n1 ++ p1 ++ ['円']), ['9'], n1, p1],
         [['1', '5'] ++ '.' :: (n2 ++ p2 ++ ['円']), ['1', '5'], n2, p2]] := by
  have htext : "9.".toList ++ n1 ++ p1 ++ "円15.".toList ++ n2 ++ p2 ++ "円".toList
      = '9' :: '.' :: (n1 ++ p1 ++ '円' :: ('1' :: '5' :: '.' :: (n2 ++ p2 ++ '円' :: []))) := by
    simp
  rw [htext, FindAll_re, find_re_cons, entryAt_clean_9 n1 p1 _ hn1 hp1.1 hp1.2]
  simp only
  rw [FindAll_re, find_re_cons, entryAt_clean_15 n2 p2 _ hn2 hp2.1 hp2.2]
  simp only
  rw [FindAll_re, find_re_nil]

/-- Facts about the name `n` and price `p` captured by an entry: the price is a non-empty
run of digits, the name has no newline and does not end with a digit, the entry reads slot,
period, name, price, `円`, and the name is empty exactly when the price directly follows the
period. -/
theorem entry_facts {t0 : List Char} {m : Caps} {rest n p : List Char}
    (he : entryAt t0 = some (m, rest)) (hn : m.get? 2 = some n) (hp : m.get? 3 = some p) :
    p ≠ [] ∧ (∀ d ∈ p, isDigit d = true) ∧ (∀ c ∈ n, c ≠ '\n') ∧
      (∀ n1 x, n = n1 ++ [x] → isDigit x = false) ∧
      ∃ slot, (slot = ['9'] ∨ slot = ['1', '5']) ∧
        t0 = slot ++ '.' :: (n ++ p ++ '円' :: rest) ∧
        (n = [] ↔ ∃ ds r, ds ≠ [] ∧ (∀ d ∈ ds, isDigit d = true) ∧
          n ++ p ++ '円' :: rest = ds ++ '円' :: r) := by
  obtain ⟨slot, n0, p0, hslot, ht0, hm, hscan⟩ := entryAt_eq_some he
  rw [hm] at hn hp
  simp only [List.get?_cons_succ, List.get?_cons_zero, Option.some.injEq] at hn hp
  subst hn hp
  obtain ⟨_, hnl, hne, hdig, hmin⟩ := nameScan_eq_some hscan
  refine ⟨hne, hdig, hnl, ?_, slot, hslot, ht0, ?_⟩
  · intro n1 x hsplit
    by_contra hx
    have hx1 : isDigit x = true := by simpa using hx
    have hnone := hmin n1 [x] hsplit (by simp)
    have hsome := priceAt_digits rest (p := x :: p0) (by simp)
      (by
        intro d hd
        rcases List.mem_cons.mp hd with e | e
        · rw [e]; exact hx1
        · exact hdig d e)
    simp only [List.cons_append, List.nil_append] at hnone hsome
    rw [hsome] at hnone
    cases hnone
  · constructor
    · intro h0
      exact ⟨p0, rest, hne, hdig, by rw [h0]; rfl⟩
    · rintro ⟨ds, r, hds, hdd, heq⟩
      have hsome := priceAt_digits r hds hdd
      rw [← heq] at hsome
      cases hn0 : n0 with
      | nil => rfl
      | cons y ys =>
        have hnone := hmin [] n0 (by simp) (by rw [hn0]; simp)
        rw [hsome] at hnone
        cases hnone

/-- Last character before the price of an entry placed after `pre`: not a digit. -/
theorem before_price_not_digit (pre slot n : List Char)
    (hn : ∀ n1 x, n = n1 ++ [x] → isDigit x = false) :
    ∀ b x, pre ++ slot ++ '.' :: n = b ++ [x] → isDigit x = false := by
  intro b x hb
  rcases List.eq_nil_or_concat n with h0 | ⟨n1, y, h1⟩
  · subst h0
    have h2 : (pre ++ slot) ++ ['.'] = b ++ [x] := by simpa using hb
    have h3 := (List.append_inj' h2 rfl).2
    simp only [List.cons.injEq, and_true] at h3
    rw [← h3]
    decide
  · have h2 : (pre ++ slot ++ '.' :: n1) ++ [y] = b ++ [x] := by
      rw [← hb, h1]
      simp
    have h3 := (List.append_inj' h2 rfl).2
    simp only [List.cons.injEq, and_true] at h3
    rw [← h3]
    exact hn n1 y (by rw [h1]; simp)

end Matcher

/-! ## Lemmas on the ledger loop -/

/-- The loop of `alreadyDone` over rows whose id has at least 8 bytes: it returns without
error, and returns `true` exactly when the first 8 bytes of some id equal `day`. -/
theorem alreadyDoneLoop_iff (day : Bytes) : ∀ rows : List (List Bytes),
    (∀ v ∈ rows, ∃ id fields, v = id :: fields ∧ 8 ≤ id.length) →
    ∃ b, alreadyDoneLoop day rows = .ret (b, none) ∧
      (b = true ↔ ∃ v ∈ rows, ∃ id fields, v = id :: fields ∧ id.take 8 = day) := by
  intro rows
  induction rows with
  | nil =>
    intro _
    exact ⟨false, rfl, by simp⟩
  | cons v vs ih =>
    intro hrows
    obtain ⟨id, fields, hv, hlen⟩ := hrows v (List.mem_cons_self _ _)
    obtain ⟨b, hb, hiff⟩ := ih (fun w hw => hrows w (List.mem_cons_of_mem _ hw))
    subst hv
    by_cases hd : day = id.take 8
    · refine ⟨true, ?_, ?_⟩
      · simp [alreadyDoneLoop, index, sliceTo, Result.bind, hlen, hd]
      · simp only [true_iff]
        exact ⟨id :: fields, List.mem_cons_self _ _, id, fields, rfl, hd.symm⟩
    · refine ⟨b, ?_, ?_⟩
      · simp [alreadyDoneLoop, index, sliceTo, Result.bind, hlen, hd, hb]
      · rw [hiff]
        constructor
        · rintro ⟨w, hw, hrest⟩
          exact ⟨w, List.mem_cons_of_mem _ hw, hrest⟩
        · rintro ⟨w, hw, id1, f1, hw1, ht⟩
          rcases List.mem_cons.mp hw with e | e
          · subst e
            simp only [List.cons.injEq] at hw1
            exact absurd (hw1.1 ▸ ht.symm) hd
          · exact ⟨w, e, id1, f1, hw1, ht⟩

/-! ## Lemmas on dates -/

theorem absDate_eq (abs : Nat) :
    absDate abs =
      (((absYearDay (abs / secondsPerDay)).1 : Int) + absoluteZeroYear,
        monthDay (isLeap (((absYearDay (abs / secondsPerDay)).1 : Int) + absoluteZeroYear))
          (absYearDay (abs / secondsPerDay)).2) := by
  have key : ∀ (year : Int) (yday : Nat),
      (if isLeap year && decide (yday = 31 + 29 - 1) then ((year, 2, 29) : Int × Nat × Nat)
        else
          if (if isLeap year && decide (yday > 31 + 29 - 1) then yday - 1 else yday)
              ≥ daysBefore.getD
                ((if isLeap year && decide (yday > 31 + 29 - 1) then yday - 1 else yday) / 31 + 1) 0
          then (year,
            (if isLeap year && decide (yday > 31 + 29 - 1) then yday - 1 else yday) / 31 + 2,
            (if isLeap year && decide (yday > 31 + 29 - 1) then yday - 1 else yday)
              - daysBefore.getD
                ((if isLeap year && decide (yday > 31 + 29 - 1) then yday - 1 else yday) / 31 + 1) 0
              + 1)
          else (year,
            (if isLeap year && decide (yday > 31 + 29 - 1) then yday - 1 else yday) / 31 + 1,
            (if isLeap year && decide (yday > 31 + 29 - 1) then yday - 1 else yday)
              - daysBefore.getD
                ((if isLeap year && decide (yday > 31 + 29 - 1) then yday - 1 else yday) / 31) 0
              + 1))
        = (year, monthDay (isLeap year) yday) := by
    intro year yday
    unfold monthDay
    split
    · rfl
    · simp only []
      split <;> split <;> rfl
  exact key _ _

theorem isLeap_shift (y : Nat) : isLeap ((y : Int) + absoluteZeroYear) = leapY y := by
  unfold isLeap leapY absoluteZeroYear
  have h4 : (((y : Int) + -292277022399) % 4 = 0) ↔ (y % 4 = 3) := by omega
  have h100 : (((y : Int) + -292277022399) % 100 = 0) ↔ (y % 100 = 99) := by omega
  have h400 : (((y : Int) + -292277022399) % 400 = 0) ↔ (y % 400 = 399) := by omega
  simp only [ne_eq, h4, h100, h400]

theorem absYearDay_stages (d : Nat) :
    ∃ a r1 b b1 r2 c r3 n n1,
      YearDayStages d a r1 b b1 r2 c r3 n n1 (absYearDay d).1 (absYearDay d).2 :=
  ⟨_, _, _, _, _, _, _, _, _, rfl, rfl, rfl, rfl, rfl, rfl, rfl, rfl, rfl, rfl, rfl⟩

theorem cut_last (b b1 : Nat) (hb : b ≤ 4) (h : b1 = b - b / 4) :
    b1 ≤ 3 ∧ (b ≤ 3 → b1 = b) ∧ (b = 4 → b1 = 3) := by
  omega

theorem stage_400 (d a r1 : Nat) (h1 : a = d / 146097) (h2 : r1 = d - 146097 * a) :
    r1 < 146097 ∧ d = 146097 * a + r1 := by
  omega

theorem stage_100 (r1 b b1 r2 : Nat) (k1 : r1 < 146097) (h3 : b = r1 / 36524)
    (h4 : b1 = b - b / 4) (h5 : r2 = r1 - 36524 * b1) :
    b1 ≤ 3 ∧ r1 = 36524 * b1 + r2 ∧ r2 ≤ 36524 ∧ (r2 = 36524 → b1 = 3) := by
  have k2 : b ≤ 4 := by omega
  have k3 := cut_last b b1 k2 h4
  omega

theorem stage_4 (r2 c r3 : Nat) (k4 : r2 ≤ 36524) (h6 : c = r2 / 1461)
    (h7 : r3 = r2 - 1461 * c) :
    c ≤ 24 ∧ r2 = 1461 * c + r3 ∧ r3 ≤ 1460 ∧ (c = 24 → r2 < 36524 → r3 ≤ 1459) := by
  omega

theorem stage_1 (r3 n n1 yd : Nat) (k6 : r3 ≤ 1460) (h8 : n = r3 / 365)
    (h9 : n1 = n - n / 4) (h11 : yd = r3 - 365 * n1) :
    n1 ≤ 3 ∧ r3 = 365 * n1 + yd ∧ yd ≤ 365 ∧ (yd = 365 → n1 = 3 ∧ r3 = 1460) ∧
      (n1 ≤ 2 → yd ≤ 364) := by
  have k7 : n ≤ 4 := by omega
  have k8 := cut_last n n1 k7 h9
  omega

theorem stages_bound {d a r1 b b1 r2 c r3 n n1 y yd : Nat}
    (h : YearDayStages d a r1 b b1 r2 c r3 n n1 y yd) :
    b1 ≤ 3 ∧ c ≤ 24 ∧ n1 ≤ 3 ∧ yd ≤ 365 ∧
      d = 146097 * a + 36524 * b1 + 1461 * c + 365 * n1 + yd ∧
      y = 400 * a + 100 * b1 + 4 * c + n1 ∧
      (yd = 365 → n1 = 3 ∧ (c = 24 → b1 = 3)) := by
  obtain ⟨h1, h2, h3, h4, h5, h6, h7, h8, h9, h10, h11⟩ := h
  obtain ⟨k1, k1'⟩ := stage_400 d a r1 h1 h2
  obtain ⟨k2, k3, k4, k5⟩ := stage_100 r1 b b1 r2 k1 h3 h4 h5
  obtain ⟨k6, k7, k8, k9⟩ := stage_4 r2 c r3 k4 h6 h7
  obtain ⟨m1, m2, m3, m4, m5⟩ := stage_1 r3 n n1 yd k8 h8 h9 h11
  clear h1 h2 h3 h4 h5 h6 h7 h8 h9 h11
  refine ⟨k2, k6, m1, m3, by omega, h10, ?_⟩
  intro hyd
  refine ⟨(m4 hyd).1, ?_⟩
  intro hc
  by_contra hb
  have := (m4 hyd).2
  have : r2 < 36524 := by omega
  have := k9 hc this
  omega

theorem daysSinceEpoch_shift (y : Nat) (hy : y < 2 ^ 64) :
    daysSinceEpoch ((y : Int) + absoluteZeroYear) = dse y := by
  have h0 : (((y : Int) + absoluteZeroYear - absoluteZeroYear) % 2 ^ 64).toNat = y := by
    have : ((y : Int) + absoluteZeroYear - absoluteZeroYear) = (y : Int) := by ring
    rw [this]
    omega
  unfold daysSinceEpoch
  rw [h0]
  unfold dse daysPer400Years daysPer100Years daysPer4Years
  simp only []
  omega

theorem yearLen_cases (y : Nat) :
    (yearLen y = 366 ∧ y % 4 = 3 ∧ (y % 100 ≠ 99 ∨ y % 400 = 399)) ∨
      (yearLen y = 365 ∧ ¬ (y % 4 = 3 ∧ (y % 100 ≠ 99 ∨ y % 400 = 399))) := by
  unfold yearLen leapY
  by_cases h : y % 4 = 3 ∧ (y % 100 ≠ 99 ∨ y % 400 = 399)
  · left
    refine ⟨?_, h⟩
    obtain ⟨h1, h2⟩ := h
    rcases h2 with h2 | h2 <;> simp [h1, h2]
  · right
    refine ⟨?_, h⟩
    have : (decide (y % 4 = 3) && (decide (y % 100 ≠ 99) || decide (y % 400 = 399))) = false := by
      simp only [ne_eq, Bool.and_eq_false_imp, decide_eq_true_eq, Bool.or_eq_false_iff,
        decide_eq_false_iff_not, not_not]
      intro h1
      by_contra hc
      apply h
      refine ⟨h1, ?_⟩
      by_cases h3 : y % 100 = 99
      · right
        by_contra h4
        exact hc ⟨h3, h4⟩
      · left; exact h3
    rw [this]
    rfl

theorem dse_succ (y : Nat) : dse (y + 1) = dse y + yearLen y := by
  rcases yearLen_cases y with ⟨h, h1, h2⟩ | ⟨h, h1⟩
  · rw [h]
    unfold dse
    omega
  · rw [h]
    unfold dse
    omega

theorem yearLen_pos (y : Nat) : 365 ≤ yearLen y ∧ yearLen y ≤ 366 := by
  rcases yearLen_cases y with ⟨h, _⟩ | ⟨h, _⟩ <;> omega

theorem dse_mono (y k : Nat) : dse y ≤ dse (y + k) := by
  induction k with
  | zero => exact Nat.le_refl _
  | succ k ih =>
    have h := dse_succ (y + k)
    have : y + (k + 1) = y + k + 1 := rfl
    rw [this, h]
    omega

/-- A day number determines its year and day within the year. -/
theorem yearDay_unique {y1 yd1 y2 yd2 : Nat} (h1 : yd1 < yearLen y1) (h2 : yd2 < yearLen y2)
    (h : dse y1 + yd1 = dse y2 + yd2) : y1 = y2 ∧ yd1 = yd2 := by
  have key : ∀ {u ud v vd : Nat}, ud < yearLen u → dse u + ud = dse v + vd → ¬ u < v := by
    intro u ud v vd hu he hlt
    have hm := dse_mono (u + 1) (v - (u + 1))
    have hv : u + 1 + (v - (u + 1)) = v := by omega
    rw [hv, dse_succ] at hm
    omega
  have a := key h1 h
  have b := key h2 h.symm
  have e : y1 = y2 := by omega
  subst e
  exact ⟨rfl, by omega⟩

theorem absYearDay_spec (d : Nat) :
    (absYearDay d).2 < yearLen (absYearDay d).1 ∧
      dse (absYearDay d).1 + (absYearDay d).2 = d ∧ (absYearDay d).1 ≤ d := by
  obtain ⟨a, r1, b, b1, r2, c, r3, n, n1, hst⟩ := absYearDay_stages d
  obtain ⟨k1, k2, k3, k4, k5, k6, k7⟩ := stages_bound hst
  generalize (absYearDay d).1 = y at *
  generalize (absYearDay d).2 = yd at *
  clear hst
  have m4 : y % 4 = n1 := by omega
  have m100 : y % 100 = 4 * c + n1 := by omega
  have m400 : y % 400 = 100 * b1 + 4 * c + n1 := by omega
  have d400 : y / 400 = a := by omega
  refine ⟨?_, ?_, by omega⟩
  · rcases yearLen_cases y with ⟨h, _⟩ | ⟨h, h1⟩
    · omega
    · rw [h]
      by_contra hc
      have hyd : yd = 365 := by omega
      obtain ⟨e1, e2⟩ := k7 hyd
      apply h1
      refine ⟨by omega, ?_⟩
      by_cases hc24 : c = 24
      · right
        have := e2 hc24
        omega
      · left
        omega
  · unfold dse
    rw [d400, m400, m100, m4]
    have q1 : (100 * b1 + 4 * c + n1) / 100 = b1 := by omega
    have q2 : (4 * c + n1) / 4 = c := by omega
    rw [q1, q2]
    omega

/-- Inverse of the year and day split: the day number `dse y + yd` is in year `y`, day `yd`. -/
theorem absYearDay_dse {y yd : Nat} (h : yd < yearLen y) : absYearDay (dse y + yd) = (y, yd) := by
  obtain ⟨h1, h2, _⟩ := absYearDay_spec (dse y + yd)
  obtain ⟨e1, e2⟩ := yearDay_unique h1 h h2
  exact Prod.ext e1 e2

theorem daysIn_eq (year : Int) (month : Nat) :
    daysIn year month = monthLen (isLeap year) month := by
  unfold daysIn monthLen isLeap
  by_cases h : year % 4 = 0 ∧ (year % 100 ≠ 0 ∨ year % 400 = 0)
  · have e : (decide (year % 4 = 0) && (decide (year % 100 ≠ 0) || decide (year % 400 = 0)))
        = true := by
      simpa using h
    rw [e, if_pos h]
    rfl
  · have e : (decide (year % 4 = 0) && (decide (year % 100 ≠ 0) || decide (year % 400 = 0)))
        = false := by
      simpa using h
    rw [e, if_neg h]
    rfl

set_option maxRecDepth 100000 in
/-- Month and day of every day of a year: a valid date of that year, at the right offset. -/
theorem monthDay_valid : ∀ leap : Bool, ∀ yd < (if leap then 366 else 365),
    1 ≤ (monthDay leap yd).1 ∧ (monthDay leap yd).1 ≤ 12 ∧
    1 ≤ (monthDay leap yd).2 ∧ (monthDay leap yd).2 ≤ monthLen leap (monthDay leap yd).1 ∧
    daysBefore.getD ((monthDay leap yd).1 - 1) 0
      + (if leap && decide ((monthDay leap yd).1 ≥ 3) then 1 else 0)
      + ((monthDay leap yd).2 - 1) = yd := by
  decide

set_option maxRecDepth 100000 in
/-- Month and day of the following day of the same year. -/
theorem monthDay_succ : ∀ leap : Bool, ∀ yd < (if leap then 366 else 365),
    (yd + 1 < (if leap then 366 else 365) →
      monthDay leap (yd + 1) =
        (if (monthDay leap yd).2 < monthLen leap (monthDay leap yd).1
          then ((monthDay leap yd).1, (monthDay leap yd).2 + 1)
          else ((monthDay leap yd).1 + 1, 1)) ∧
      ((monthDay leap yd).2 < monthLen leap (monthDay leap yd).1 ∨ (monthDay leap yd).1 < 12)) ∧
    (yd + 1 = (if leap then 366 else 365) → monthDay leap yd = (12, 31)) := by
  decide

theorem yearLen_eq (y : Nat) : yearLen y = if leapY y then 366 else 365 := rfl

/-- The date of the day after: `absDate` one day later is the next calendar date. -/
theorem absDate_next (abs : Nat) : absDate (abs + secondsPerDay) = nextDay (absDate abs) := by
  have hdiv : (abs + secondsPerDay) / secondsPerDay = abs / secondsPerDay + 1 := by
    unfold secondsPerDay
    omega
  rw [absDate_eq, absDate_eq, hdiv]
  generalize abs / secondsPerDay = d
  obtain ⟨h1, h2, _⟩ := absYearDay_spec d
  generalize hy : (absYearDay d).1 = y at *
  generalize hyd : (absYearDay d).2 = yd at *
  rw [isLeap_shift]
  rw [yearLen_eq] at h1
  have hv := monthDay_valid (leapY y) yd h1
  have hs := monthDay_succ (leapY y) yd h1
  unfold nextDay
  simp only [daysIn_eq, isLeap_shift]
  by_cases hlast : yd + 1 < yearLen y
  · have e : absYearDay (d + 1) = (y, yd + 1) := by
      have h3 := absYearDay_dse hlast
      have e3 : dse y + (yd + 1) = d + 1 := by omega
      rw [e3] at h3
      exact h3
    rw [e]
    simp only [isLeap_shift]
    rw [yearLen_eq] at hlast
    obtain ⟨e1, e2⟩ := hs.1 hlast
    rw [e1]
    by_cases hlt : (monthDay (leapY y) yd).2 < monthLen (leapY y) (monthDay (leapY y) yd).1
    · rw [if_pos hlt, if_pos hlt]
    · rw [if_neg hlt, if_neg hlt]
      have h12 : (monthDay (leapY y) yd).1 < 12 := by
        rcases e2 with e2 | e2
        · exact absurd e2 hlt
        · exact e2
      rw [if_pos h12]
  · have hend : yd + 1 = yearLen y := by
      rw [yearLen_eq] at hlast ⊢
      omega
    have e : absYearDay (d + 1) = (y + 1, 0) := by
      have h0 : (0 : Nat) < yearLen (y + 1) := by
        have := yearLen_pos (y + 1)
        omega
      have h3 := absYearDay_dse h0
      have e3 : dse (y + 1) + 0 = d + 1 := by
        rw [dse_succ]
        omega
      rw [e3] at h3
      exact h3
    rw [e]
    rw [yearLen_eq] at hend
    have e4 := hs.2 hend
    rw [e4]
    simp only [isLeap_shift]
    have m0 : ∀ b : Bool, monthDay b 0 = (1, 1) := by decide
    have ml : monthLen (leapY y) 12 = 31 := by
      unfold monthLen
      simp
    rw [m0, ml]
    simp only [Nat.lt_irrefl, if_false]
    simp only [Nat.cast_add, Nat.cast_one]
    have : (y : Int) + 1 + absoluteZeroYear = (y : Int) + absoluteZeroYear + 1 := by ring
    rw [this]

theorem absDate_addDays (n abs : Nat) :
    absDate (abs + n * secondsPerDay) = addDays n (absDate abs) := by
  induction n generalizing abs with
  | zero => simp [addDays]
  | succ n ih =>
    have e : abs + (n + 1) * secondsPerDay = (abs + secondsPerDay) + n * secondsPerDay := by ring
    rw [e, ih, absDate_next]
    rfl

theorem Date_abs (y m : Nat) (day : Int) (h mi s : Nat) (hy : y < 2 ^ 64)
    (hm1 : 1 ≤ m) (hm12 : m ≤ 12) (hh : h < 24) (hmi : mi < 60) (hs : s < 60) :
    (Date ((y : Int) + absoluteZeroYear) m day h mi s).abs
      = ((((dse y : Int) + (daysBefore.getD (m - 1) 0 : Nat)
            + (if leapY y && decide (m ≥ 3) then 1 else 0) + (day - 1)) * secondsPerDay
          + (h * 3600 + mi * 60 + s)) % 2 ^ 64).toNat := by
  have e1 : ((m : Int) - 1) / 12 = 0 := by omega
  have e2 : ((m : Int) - 1) % 12 = (m : Int) - 1 := by omega
  have e3 : (s : Int) / 60 = 0 := by omega
  have e4 : (s : Int) % 60 = s := by omega
  have e5 : (mi : Int) / 60 = 0 := by omega
  have e6 : (mi : Int) % 60 = mi := by omega
  have e7 : (h : Int) / 24 = 0 := by omega
  have e8 : (h : Int) % 24 = h := by omega
  have e9 : ((m : Int) - 1 + 1 - 1).toNat = m - 1 := by omega
  have e10 : decide ((m : Int) - 1 + 1 ≥ 3) = decide (m ≥ 3) := by
    apply decide_eq_decide.mpr
    omega
  unfold Date norm
  simp only [e1, e2, e3, e4, e5, e6, e7, e8, e9, e10, add_zero]
  rw [daysSinceEpoch_shift y hy, isLeap_shift]
  split <;> rfl

theorem clock_sum (r : Nat) (hr : r < 86400) :
    r / 3600 < 24 ∧ (r - r / 3600 * 3600) / 60 < 60 ∧
      r - r / 3600 * 3600 - (r - r / 3600 * 3600) / 60 * 60 < 60 ∧
      r / 3600 * 3600 + (r - r / 3600 * 3600) / 60 * 60
        + (r - r / 3600 * 3600 - (r - r / 3600 * 3600) / 60 * 60) = r := by
  omega

theorem days_shift (a b c d n yd D : Int) (h1 : b + c + (d - 1) = yd) (h2 : a + yd = D) :
    a + b + c + (d + n - 1) = D + n := by
  omega

theorem seconds_shift (q r A n : Int) (h : q * 86400 + r = A) :
    (q + n) * ((86400 : Nat) : Int) + r = A + n * ((86400 : Nat) : Int) := by
  have e : ((86400 : Nat) : Int) = 86400 := rfl
  rw [e]
  omega

theorem toNat_emod_uint64 (x : Nat) (hx : x < 2 ^ 64) : (((x : Int)) % 2 ^ 64).toNat = x := by
  omega

/-- Adding `n` days with `AddDate` moves the absolute time by `n` days, as long as the result
stays within `uint64`. -/
theorem AddDate_abs (t : Time) (n : Nat) (hr : t.abs + n * secondsPerDay < 2 ^ 64) :
    (t.AddDate 0 0 n).abs = t.abs + n * secondsPerDay := by
  obtain ⟨h1, h2, h3⟩ := absYearDay_spec (t.abs / secondsPerDay)
  have hdate := absDate_eq t.abs
  rw [isLeap_shift] at hdate
  generalize hy : (absYearDay (t.abs / secondsPerDay)).1 = y at *
  generalize hyd : (absYearDay (t.abs / secondsPerDay)).2 = yd at *
  rw [yearLen_eq] at h1
  obtain ⟨v1, v2, v3, v4, v5⟩ := monthDay_valid (leapY y) yd h1
  generalize hmd : monthDay (leapY y) yd = md at *
  obtain ⟨m, dd⟩ := md
  simp only at v1 v2 v3 v4 v5
  have hsec : secondsPerDay = 86400 := rfl
  rw [hsec] at hr h2 h3 ⊢
  have hdiv : t.abs / 86400 ≤ t.abs := Nat.div_le_self _ _
  have hmod : t.abs % 86400 < 86400 := Nat.mod_lt _ (by decide)
  have hsplit : t.abs / 86400 * 86400 + t.abs % 86400 = t.abs := Nat.div_add_mod' _ _
  have hylt : y < 2 ^ 64 := by
    clear hdate v1 v2 v3 v4 v5 h1 h2 hmod hsplit
    omega
  obtain ⟨c1, c2, c3, c4⟩ := clock_sum (t.abs % 86400) hmod
  have hclock : t.Clock =
      (t.abs % 86400 / 3600, (t.abs % 86400 - t.abs % 86400 / 3600 * 3600) / 60,
        t.abs % 86400 - t.abs % 86400 / 3600 * 3600
          - (t.abs % 86400 - t.abs % 86400 / 3600 * 3600) / 60 * 60) := rfl
  unfold Time.AddDate Time.Date
  rw [hdate, hclock]
  simp only [add_zero]
  rw [Date_abs y m ((dd : Int) + (n : Int)) (t.abs % 86400 / 3600)
    ((t.abs % 86400 - t.abs % 86400 / 3600 * 3600) / 60)
    (t.abs % 86400 - t.abs % 86400 / 3600 * 3600
      - (t.abs % 86400 - t.abs % 86400 / 3600 * 3600) / 60 * 60)
    hylt v1 v2 c1 c2 c3]
  rw [hsec]
  have v5i : ((daysBefore.getD (m - 1) 0 : Nat) : Int)
      + (if leapY y && decide (m ≥ 3) then (1 : Int) else 0) + ((dd : Int) - 1) = (yd : Int) := by
    clear hdate h1 h2 h3 hr hdiv hmod hsplit hylt c1 c2 c3 c4 hclock
    by_cases hc : (leapY y && decide (m ≥ 3)) = true
    · rw [if_pos hc] at v5 ⊢
      omega
    · rw [if_neg hc] at v5 ⊢
      omega
  have hd : (dse y : Int) + ((daysBefore.getD (m - 1) 0 : Nat) : Int)
      + (if leapY y && decide (m ≥ 3) then 1 else 0) + ((dd : Int) + (n : Int) - 1)
      = ((t.abs / 86400 + n : Nat) : Int) := by
    have h2i : (dse y : Int) + (yd : Int) = ((t.abs / 86400 : Nat) : Int) := by
      exact_mod_cast h2
    rw [Nat.cast_add]
    exact days_shift _ _ _ _ _ _ _ v5i h2i
  have hc4 : (((t.abs % 86400 / 3600 : Nat) : Int) * 3600
      + ((((t.abs % 86400 - t.abs % 86400 / 3600 * 3600) / 60 : Nat)) : Int) * 60
      + (((t.abs % 86400 - t.abs % 86400 / 3600 * 3600
          - (t.abs % 86400 - t.abs % 86400 / 3600 * 3600) / 60 * 60 : Nat)) : Int))
      = ((t.abs % 86400 : Nat) : Int) := by
    exact_mod_cast c4
  rw [hd, hc4]
  have hall : (((t.abs / 86400 + n : Nat) : Int) * ((86400 : Nat) : Int)
      + ((t.abs % 86400 : Nat) : Int)) = ((t.abs + n * 86400 : Nat) : Int) := by
    have hq : ((t.abs / 86400 : Nat) : Int) * 86400 + ((t.abs % 86400 : Nat) : Int)
        = (t.abs : Int) := by
      exact_mod_cast hsplit
    rw [Nat.cast_add, Nat.cast_add, Nat.cast_mul]
    exact seconds_shift _ _ _ _ hq
  rw [hall]
  exact toNat_emod_uint64 _ hr

theorem Format_dayFormat (t : Time) : t.Format dayFormat = isoDate t.Date := by
  have h : t.Format dayFormat = appendInt t.Date.1 4 ++
      ('-' :: (appendInt t.Date.2.1 2 ++ ('-' :: (appendInt t.Date.2.2 2 ++ [])))) := rfl
  rw [h]
  simp [isoDate]

theorem Format_idFormat (t : Time) :
    t.Format idFormat = appendInt t.Date.1 4 ++ (appendInt t.Date.2.1 2 ++ appendInt t.Date.2.2 2) := by
  have h : t.Format idFormat = appendInt t.Date.1 4 ++
      (appendInt t.Date.2.1 2 ++ (appendInt t.Date.2.2 2 ++ [])) := rfl
  rw [h]
  simp

/-- The date `n` days after the date of `t`, read off `AddDate`. -/
theorem AddDate_Date (t : Time) (n : Nat) (hr : t.abs + n * secondsPerDay < 2 ^ 64) :
    (t.AddDate 0 0 n).Date = addDays n t.Date := by
  unfold Time.Date
  rw [AddDate_abs t n hr, absDate_addDays]

theorem decDigits_length (k : Nat) : ∀ (fuel u : Nat), 1 ≤ k → k ≤ fuel → u < 10 ^ k →
    1 ≤ (decDigits fuel u).length ∧ (decDigits fuel u).length ≤ k := by
  induction k with
  | zero =>
    intro fuel u h
    omega
  | succ k ih =>
    intro fuel u _ hf hu
    cases fuel with
    | zero => omega
    | succ f =>
      unfold decDigits
      by_cases h10 : u < 10
      · rw [if_pos h10]
        simp
      · rw [if_neg h10]
        have hk : 1 ≤ k := by
          rcases Nat.eq_zero_or_pos k with h0 | h0
          · subst h0
            simp at hu
            omega
          · exact h0
        have hu2 : u / 10 < 10 ^ k := by
          rw [Nat.pow_succ] at hu
          omega
        obtain ⟨a, b⟩ := ih f (u / 10) hk (by omega) hu2
        simp only [List.length_append, List.length_singleton]
        omega

theorem appendInt_length (x : Int) (w : Nat) (hw : 1 ≤ w) (hw2 : w ≤ 20) (h0 : 0 ≤ x)
    (hx : x < 10 ^ w) : (appendInt x w).length = w := by
  have hu : x.natAbs < 10 ^ w := by
    have : (x.natAbs : Int) = x := Int.natAbs_of_nonneg h0
    have h2 : ((x.natAbs : Nat) : Int) < ((10 ^ w : Nat) : Int) := by
      rw [this]
      push_cast
      exact hx
    exact_mod_cast h2
  obtain ⟨a, b⟩ := decDigits_length w 20 x.natAbs hw hw2 hu
  unfold appendInt
  have hn : ¬ x < 0 := by omega
  simp only [hn, if_false, List.nil_append, List.length_append, List.length_replicate]
  omega

/-- Range of the month and day that `absDate` returns. -/
theorem absDate_range (abs : Nat) :
    1 ≤ (absDate abs).2.1 ∧ (absDate abs).2.1 ≤ 12 ∧
      1 ≤ (absDate abs).2.2 ∧ (absDate abs).2.2 ≤ daysIn (absDate abs).1 (absDate abs).2.1 ∧
      (absDate abs).2.2 ≤ 31 := by
  rw [absDate_eq]
  simp only [daysIn_eq]
  obtain ⟨h1, _, _⟩ := absYearDay_spec (abs / secondsPerDay)
  rw [isLeap_shift]
  rw [yearLen_eq] at h1
  obtain ⟨v1, v2, v3, v4, _⟩ := monthDay_valid _ _ h1
  refine ⟨v1, v2, v3, v4, ?_⟩
  have : ∀ (b : Bool) (m : Nat), monthLen b m ≤ 31 := by
    intro b m
    unfold monthLen
    split
    · split <;> omega
    · split <;> omega
  exact Nat.le_trans v4 (this _ _)

theorem Format_idFormat_length (t : Time) (h0 : 0 ≤ t.Date.1) (h1 : t.Date.1 ≤ 9999) :
    (t.Format idFormat).length = 8 := by
  obtain ⟨v1, v2, v3, _, v5⟩ := absDate_range t.abs
  rw [Format_idFormat]
  have a := appendInt_length t.Date.1 4 (by omega) (by omega) h0 (by omega)
  have b := appendInt_length (t.Date.2.1 : Int) 2 (by omega) (by omega) (by omega)
    (by unfold Time.Date; omega)
  have c := appendInt_length (t.Date.2.2 : Int) 2 (by omega) (by omega) (by omega)
    (by unfold Time.Date; omega)
  simp only [List.length_append, a, b, c]

/-- The dates of `absDate` are those of the calendar: day `n` after the absolute epoch is
`n` calendar steps after January 1 of `absoluteZeroYear`. -/
theorem absDate_calendar (n : Nat) :
    absDate (n * secondsPerDay) = addDays n (absoluteZeroYear, 1, 1) := by
  have h0 : absDate 0 = (absoluteZeroYear, 1, 1) := by decide
  have h := absDate_addDays n 0
  rw [Nat.zero_add, h0] at h
  exact h

theorem absDate_whole_days (abs : Nat) :
    absDate (abs / secondsPerDay * secondsPerDay) = absDate abs := by
  have h : abs / secondsPerDay * secondsPerDay / secondsPerDay = abs / secondsPerDay := by
    unfold secondsPerDay
    omega
  rw [absDate_eq, absDate_eq abs, h]

/-- From the absolute epoch on, the date `t.Date()` is the calendar date of `t`. -/
theorem calendarDate_eq_Date (t : Time) (h : t.abs < 2 ^ 63 + unixToAbsolute) :
    calendarDate t = t.Date := by
  have hs : t.sinceEpoch = (t.abs : Int) := by
    unfold Time.sinceEpoch
    rw [if_pos h]
  have h0 : (0 : Int) ≤ (t.abs : Int) := Int.ofNat_nonneg _
  have hd : ((t.abs : Int) / (secondsPerDay : Int)).toNat = t.abs / secondsPerDay := by
    unfold secondsPerDay
    omega
  unfold calendarDate Time.Date
  rw [hs, if_pos h0, hd, ← absDate_calendar, absDate_whole_days]

theorem subDays_add (a b : Nat) : ∀ date : Int × Nat × Nat,
    subDays (a + b) date = subDays b (subDays a date) := by
  induction a with
  | zero =>
    intro date
    simp [subDays]
  | succ a ih =>
    intro date
    have e : a + 1 + b = (a + b) + 1 := by omega
    rw [e]
    simp only [subDays]
    exact ih _

set_option maxRecDepth 100000 in
/-- The calendar date 400 days before January 1 of `absoluteZeroYear`, fifty days at a
time. -/
theorem subDays_400 : subDays 400 (absoluteZeroYear, 1, 1) = (-292277022401, 11, 28) := by
  have h1 : subDays 50 (absoluteZeroYear, 1, 1) = (-292277022400, 11, 12) := by decide
  have h2 : subDays 50 (-292277022400, 11, 12) = (-292277022400, 9, 23) := by decide
  have h3 : subDays 50 (-292277022400, 9, 23) = (-292277022400, 8, 4) := by decide
  have h4 : subDays 50 (-292277022400, 8, 4) = (-292277022400, 6, 15) := by decide
  have h5 : subDays 50 (-292277022400, 6, 15) = (-292277022400, 4, 26) := by decide
  have h6 : subDays 50 (-292277022400, 4, 26) = (-292277022400, 3, 7) := by decide
  have h7 : subDays 50 (-292277022400, 3, 7) = (-292277022400, 1, 17) := by decide
  have h8 : subDays 50 (-292277022400, 1, 17) = (-292277022401, 11, 28) := by decide
  have e : (400 : Nat) = 50 + (50 + (50 + (50 + (50 + (50 + (50 + 50)))))) := rfl
  rw [e]
  simp only [subDays_add]
  rw [h1, h2, h3, h4, h5, h6, h7, h8]

set_option maxRecDepth 100000 in
/-- The calendar date of `beforeEpoch`. -/
theorem calendarDate_beforeEpoch : calendarDate beforeEpoch = (-292277022401, 11, 28) := by
  have hs : beforeEpoch.sinceEpoch = -34560000 := by decide
  have hneg : ¬ (0 : Int) ≤ -34560000 := by decide
  have hn : ((-(-34560000 : Int) + ((secondsPerDay : Int) - 1)) / (secondsPerDay : Int)).toNat
      = 400 := by decide
  unfold calendarDate
  rw [hs, if_neg hneg, hn]
  exact subDays_400

/-! ## The claims -/

/-- C1. For dish names `n1`, `n2` without ASCII digit or newline, non-empty digit strings
`p1`, `p2` and any reference time `t`, `parseOneLine` on `"9." + n1 + p1 + "円15." + n2 + p2 +
"円"` succeeds and returns `menu9` with name `n1` and price `p1` and `menu15` with name `n2`
and price `p2`, the other fields being those the function derives from `t`. -/
theorem parseOneLine_extracts_two_entries (n1 n2 p1 p2 : List Char) (t : Time)
    (hn1 : ∀ c ∈ n1, isDigit c = false ∧ c ≠ '\n')
    (hn2 : ∀ c ∈ n2, isDigit c = false ∧ c ≠ '\n')
    (hp1 : p1 ≠ [] ∧ ∀ d ∈ p1, isDigit d = true)
    (hp2 : p2 ≠ [] ∧ ∀ d ∈ p2, isDigit d = true) :
    parseOneLine ("9.".toList ++ n1 ++ p1 ++ "円15.".toList ++ n2 ++ p2 ++ "円".toList) t
      = .ret
        ({ Id := t.Format idFormat ++ "09".toList
           Name := n1
           Price := p1
           Category := "定食".toList
           Description := "週代わり定食9番".toList
           DayStart := t.Format dayFormat
           DayEnd := (t.AddDate 0 0 6).Format dayFormat },
         { Id := t.Format idFormat ++ "15".toList
           Name := n2
           Price := p2
           Category := "定食".toList
           Description := "週代わり定食15番".toList
           DayStart := t.Format dayFormat
           DayEnd := (t.AddDate 0 0 6).Format dayFormat },
         none) := by
  obtain ⟨f0, s0, a0, b0, f1, s1, a1, b1, hm0, hm1, hp⟩ :=
    parseOneLine_of_matches t (FindAll_clean n1 n2 p1 p2 hn1 hn2 hp1 hp2)
  simp only [List.cons.injEq, and_true] at hm0 hm1
  obtain ⟨_, _, rfl, rfl⟩ := hm0
  obtain ⟨_, _, rfl, rfl⟩ := hm1
  rw [hp]
  rfl

set_option maxRecDepth 100000 in
/-- C1, the example of the specification: `"9.Curry800円15.Ramen700円"` with reference date
2024-03-04 gives ids `2024030409` and `2024030415`, names `Curry` and `Ramen`, prices `800`
and `700`, and the window 2024-03-04 to 2024-03-10 for both records. -/
theorem parseOneLine_extracts_two_entries_witness :
    parseOneLine "9.Curry800円15.Ramen700円".toList (Date 2024 3 4 0 0 0)
      = .ret
        ({ Id := "2024030409".toList
           Name := "Curry".toList
           Price := "800".toList
           Category := "定食".toList
           Description := "週代わり定食9番".toList
           DayStart := "2024-03-04".toList
           DayEnd := "2024-03-10".toList },
         { Id := "2024030415".toList
           Name := "Ramen".toList
           Price := "700".toList
           Category := "定食".toList
           Description := "週代わり定食15番".toList
           DayStart := "2024-03-04".toList
           DayEnd := "2024-03-10".toList },
         none) := by
  have h := parseOneLine_extracts_two_entries "Curry".toList "Ramen".toList "800".toList
    "700".toList (Date 2024 3 4 0 0 0) (by decide) (by decide) (by decide) (by decide)
  have e1 : (Date 2024 3 4 0 0 0).Format idFormat = "20240304".toList := by decide
  have e2 : (Date 2024 3 4 0 0 0).Format dayFormat = "2024-03-04".toList := by decide
  have e3 : ((Date 2024 3 4 0 0 0).AddDate 0 0 6).Format dayFormat = "2024-03-10".toList := by
    decide
  rw [e1, e2, e3] at h
  exact h

/-- C2. `parseOneLine` returns an error exactly when the pattern has fewer than two
non-overlapping matches in the text: with fewer than two matches it returns the zero `Menu`
twice and the error built from the matches, and with two or more it returns no error; it
never panics. -/
theorem parseOneLine_error_iff_fewer_than_two (text : List Char) (t : Time) :
    ((∃ menu9 menu15 err, parseOneLine text t = .ret (menu9, menu15, some err))
        ↔ (re.FindAllStringSubmatch text).length < 2) ∧
      ((re.FindAllStringSubmatch text).length < 2 →
        parseOneLine text t = .ret ({}, {}, some ("failed to parse string: ".toList
          ++ sprintV (re.FindAllStringSubmatch text)))) ∧
      (2 ≤ (re.FindAllStringSubmatch text).length →
        ∃ menu9 menu15, parseOneLine text t = .ret (menu9, menu15, none)) := by
  have hlt : (re.FindAllStringSubmatch text).length < 2 →
      parseOneLine text t = .ret ({}, {}, some ("failed to parse string: ".toList
          ++ sprintV (re.FindAllStringSubmatch text))) := by
    intro h
    simp [parseOneLine, h]
  have hge : 2 ≤ (re.FindAllStringSubmatch text).length →
      ∃ menu9 menu15, parseOneLine text t = .ret (menu9, menu15, none) :=
    parseOneLine_two_or_more text t
  refine ⟨⟨?_, fun h => ⟨_, _, _, hlt h⟩⟩, hlt, hge⟩
  rintro ⟨menu9, menu15, err, he⟩
  by_contra hcon
  obtain ⟨a, b, hok⟩ := hge (by omega)
  rw [hok] at he
  simp at he

set_option maxRecDepth 100000 in
/-- C3 fails as stated: for the reference time `beforeEpoch`, 400 days before the absolute
epoch of the `time` package, extraction succeeds, the calendar date of the instant is
-292277022401-11-28, and `DayStart` is not that date. -/
theorem parseOneLine_window_before_epoch :
    isoDate (calendarDate beforeEpoch) = "-292277022401-11-28".toList ∧
      (∃ menu9 menu15,
        parseOneLine "9.Curry800円15.Ramen700円".toList beforeEpoch
          = .ret (menu9, menu15, none) ∧
        menu9.DayStart ≠ "-292277022401-11-28".toList) ∧
      ¬ (∀ (text : List Char) (t : Time) (menu9 menu15 : Menu),
          parseOneLine text t = .ret (menu9, menu15, none) →
            menu9.DayStart = isoDate (calendarDate t) ∧
            menu9.DayEnd = isoDate (addDays 6 (calendarDate t)) ∧
            menu15.DayStart = menu9.DayStart ∧ menu15.DayEnd = menu9.DayEnd) := by
  have hc : isoDate (calendarDate beforeEpoch) = "-292277022401-11-28".toList := by
    rw [calendarDate_beforeEpoch]
    decide
  obtain ⟨m9, m15, hp⟩ := parseOneLine_two_or_more "9.Curry800円15.Ramen700円".toList
    beforeEpoch (by decide)
  obtain ⟨_, _, _, _, _, _, _, _, n0, p0, n1, p1, _, _, _, _, _, _, _, _, e9, _⟩ :=
    parseOneLine_ok hp
  have hS : m9.DayStart = beforeEpoch.Format dayFormat := by
    rw [e9]; rfl
  have hne : beforeEpoch.Format dayFormat ≠ "-292277022401-11-28".toList := by decide
  have hS2 : m9.DayStart ≠ "-292277022401-11-28".toList := by
    rw [hS]; exact hne
  refine ⟨hc, ⟨m9, m15, hp, hS2⟩, fun hall => ?_⟩
  have h1 := (hall _ _ _ _ hp).1
  rw [hc] at h1
  exact hS2 h1

/-- C3 as amended. When `parseOneLine` succeeds on a reference time `t` (of a location with a
fixed offset, as every `Time` here) that is not before the absolute epoch of the `time`
package, both records have `DayStart` equal to the calendar date of `t` written
`YYYY-MM-DD` and `DayEnd` equal to the calendar date six days later (six steps of `nextDay`,
across month ends, year ends and leap days) in the same format; the two records share both
fields. -/
theorem parseOneLine_window (text : List Char) (t : Time) (menu9 menu15 : Menu)
    (h : parseOneLine text t = .ret (menu9, menu15, none))
    (hr : t.abs < 2 ^ 63 + unixToAbsolute) :
    menu9.DayStart = isoDate (calendarDate t) ∧
      menu9.DayEnd = isoDate (addDays 6 (calendarDate t)) ∧
      menu15.DayStart = menu9.DayStart ∧ menu15.DayEnd = menu9.DayEnd := by
  obtain ⟨_, _, _, _, _, _, _, _, n0, p0, n1, p1, _, _, _, _, _, _, _, _, e9, e15⟩ :=
    parseOneLine_ok h
  have hS9 : menu9.DayStart = t.Format dayFormat := by rw [e9]; rfl
  have hE9 : menu9.DayEnd = (t.AddDate 0 0 6).Format dayFormat := by rw [e9]; rfl
  have hS15 : menu15.DayStart = t.Format dayFormat := by rw [e15]; rfl
  have hE15 : menu15.DayEnd = (t.AddDate 0 0 6).Format dayFormat := by rw [e15]; rfl
  have hu : (2 : Nat) ^ 63 + unixToAbsolute + 6 * secondsPerDay < 2 ^ 64 := by decide
  have hd := AddDate_Date t 6 (Nat.lt_trans (Nat.add_lt_add_right hr _) hu)
  have hcast : t.AddDate 0 0 ((6 : Nat) : Int) = t.AddDate 0 0 6 := rfl
  rw [hcast] at hd
  have hcal := calendarDate_eq_Date t hr
  rw [hS9, hE9, hS15, hE15, Format_dayFormat, Format_dayFormat, hd, hcal]
  exact ⟨rfl, rfl, rfl, rfl⟩

set_option maxRecDepth 100000 in
/-- C3 as amended, on the dates of the claim: from 2024-02-27 the window ends on 2024-03-04,
across the leap day, and from 2024-12-28 it ends on 2025-01-03, across the end of the
year. -/
theorem parseOneLine_window_witness :
    (∃ menu9 menu15,
      parseOneLine "9.Curry800円15.Ramen700円".toList (Date 2024 2 27 12 0 0)
        = .ret (menu9, menu15, none) ∧
      menu9.DayStart = "2024-02-27".toList ∧ menu9.DayEnd = "2024-03-04".toList ∧
      menu15.DayStart = "2024-02-27".toList ∧ menu15.DayEnd = "2024-03-04".toList) ∧
    (∃ menu9 menu15,
      parseOneLine "9.Curry800円15.Ramen700円".toList (Date 2024 12 28 12 0 0)
        = .ret (menu9, menu15, none) ∧
      menu9.DayStart = "2024-12-28".toList ∧ menu9.DayEnd = "2025-01-03".toList ∧
      menu15.DayStart = "2024-12-28".toList ∧ menu15.DayEnd = "2025-01-03".toList) := by
  obtain ⟨a9, a15, ha⟩ := parseOneLine_two_or_more "9.Curry800円15.Ramen700円".toList
    (Date 2024 2 27 12 0 0) (by decide)
  obtain ⟨b9, b15, hb⟩ := parseOneLine_two_or_more "9.Curry800円15.Ramen700円".toList
    (Date 2024 12 28 12 0 0) (by decide)
  obtain ⟨a1, a2, a3, a4⟩ := parseOneLine_window _ _ _ _ ha (by decide)
  obtain ⟨b1, b2, b3, b4⟩ := parseOneLine_window _ _ _ _ hb (by decide)
  have ca := calendarDate_eq_Date (Date 2024 2 27 12 0 0) (by decide)
  have cb := calendarDate_eq_Date (Date 2024 12 28 12 0 0) (by decide)
  have ea1 : isoDate (Date 2024 2 27 12 0 0).Date = "2024-02-27".toList := by decide
  have ea2 : isoDate (addDays 6 (Date 2024 2 27 12 0 0).Date) = "2024-03-04".toList := by
    decide
  have eb1 : isoDate (Date 2024 12 28 12 0 0).Date = "2024-12-28".toList := by decide
  have eb2 : isoDate (addDays 6 (Date 2024 12 28 12 0 0).Date) = "2025-01-03".toList := by
    decide
  rw [ca] at a1 a2
  rw [cb] at b1 b2
  refine ⟨⟨a9, a15, ha, ?_, ?_, ?_, ?_⟩, ⟨b9, b15, hb, ?_, ?_, ?_, ?_⟩⟩
  · rw [a1, ea1]
  · rw [a2, ea2]
  · rw [a3, a1, ea1]
  · rw [a4, a2, ea2]
  · rw [b1, eb1]
  · rw [b2, eb2]
  · rw [b3, b1, eb1]
  · rw [b4, b2, eb2]

/-- C4. When `parseOneLine` succeeds, `menu9.Id` is `K` followed by `09` and `menu15.Id` is
`K` followed by `15`, where `K = t.Format idFormat` is the week key; the two ids are
distinct and differ only in that suffix; and for years 0000 to 9999 each id has 10
characters, the first 8 being `K`. -/
theorem parseOneLine_ids (text : List Char) (t : Time) (menu9 menu15 : Menu)
    (h : parseOneLine text t = .ret (menu9, menu15, none)) :
    menu9.Id = t.Format idFormat ++ "09".toList ∧
      menu15.Id = t.Format idFormat ++ "15".toList ∧
      menu9.Id ≠ menu15.Id ∧
      (0 ≤ t.Date.1 → t.Date.1 ≤ 9999 →
        menu9.Id.length = 10 ∧ menu15.Id.length = 10 ∧
        menu9.Id.take 8 = t.Format idFormat ∧ menu15.Id.take 8 = t.Format idFormat) := by
  obtain ⟨_, _, _, _, _, _, _, _, n0, p0, n1, p1, _, _, _, _, _, _, _, _, e9, e15⟩ :=
    parseOneLine_ok h
  have h9 : menu9.Id = t.Format idFormat ++ "09".toList := by rw [e9]; rfl
  have h15 : menu15.Id = t.Format idFormat ++ "15".toList := by rw [e15]; rfl
  refine ⟨h9, h15, ?_, ?_⟩
  · rw [h9, h15]
    intro he
    have := List.append_cancel_left he
    revert this
    decide
  · intro h0 h1
    have hl := Format_idFormat_length t h0 h1
    rw [h9, h15]
    refine ⟨?_, ?_, ?_, ?_⟩
    · rw [List.length_append, hl]; rfl
    · rw [List.length_append, hl]; rfl
    · exact List.take_left' hl
    · exact List.take_left' hl

set_option maxRecDepth 100000 in
/-- C4 on the example of the specification: for 2024-03-04 the week key is `20240304` and
the ids are `2024030409` and `2024030415`. -/
theorem parseOneLine_ids_witness :
    (Date 2024 3 4 0 0 0).Format idFormat = "20240304".toList ∧
      ∃ menu9 menu15,
        parseOneLine "9.Curry800円15.Ramen700円".toList (Date 2024 3 4 0 0 0)
          = .ret (menu9, menu15, none) ∧
        menu9.Id = "2024030409".toList ∧ menu15.Id = "2024030415".toList ∧
        menu9.Id ≠ menu15.Id ∧ menu9.Id.length = 10 ∧ menu15.Id.length = 10 ∧
        menu9.Id.take 8 = "20240304".toList ∧ menu15.Id.take 8 = "20240304".toList := by
  have ek : (Date 2024 3 4 0 0 0).Format idFormat = "20240304".toList := by decide
  obtain ⟨m9, m15, hp⟩ :=
    parseOneLine_two_or_more "9.Curry800円15.Ramen700円".toList
      (Date 2024 3 4 0 0 0) (by decide)
  obtain ⟨c1, c2, c3, c4⟩ := parseOneLine_ids _ _ _ _ hp
  obtain ⟨d1, d2, d3, d4⟩ := c4 (by decide) (by decide)
  rw [ek] at c1 c2 d3 d4
  exact ⟨ek, m9, m15, hp, c1, c2, c3, d1, d2, d3, d4⟩

/-- C5. For a ledger that parses to a header row followed by rows whose id has at least 8
bytes, `alreadyDone day` returns without error, and returns `true` exactly when some row
after the header has the first 8 bytes of its id equal to `day`; the header takes no part in
the answer. -/
theorem alreadyDone_iff_row_matches (day : Bytes) (header : List Bytes)
    (rows : List (List Bytes))
    (hrows : ∀ v ∈ rows, ∃ id fields, v = id :: fields ∧ 8 ≤ id.length) :
    ∃ b, alreadyDone (.records (header :: rows)) day = .ret (b, none) ∧
      (b = true ↔ ∃ v ∈ rows, ∃ id fields, v = id :: fields ∧ id.take 8 = day) := by
  obtain ⟨b, hb, hiff⟩ := alreadyDoneLoop_iff day rows hrows
  exact ⟨b, by simp [alreadyDone, sliceFrom, Result.bind, hb], hiff⟩

set_option maxRecDepth 100000 in
/-- C5 on a ledger whose header starts with the week key and whose only row is of another
week: the answer is `false`, the header is not compared. -/
theorem alreadyDone_iff_row_matches_witness :
    alreadyDone (.records [[ascii "20240304", ascii "name"], [ascii "2024031109", ascii "x"]])
        (ascii "20240304") = .ret (false, none) ∧
      ∃ b, alreadyDone
          (.records [[ascii "20240304", ascii "name"], [ascii "2024031109", ascii "x"]])
          (ascii "20240304") = .ret (b, none) ∧
        (b = true ↔ ∃ v ∈ [[ascii "2024031109", ascii "x"]], ∃ id fields,
          v = id :: fields ∧ id.take 8 = ascii "20240304") :=
  ⟨by decide,
   alreadyDone_iff_row_matches (ascii "20240304") [ascii "20240304", ascii "name"]
     [[ascii "2024031109", ascii "x"]]
     (by
       intro v hv
       simp only [List.mem_singleton] at hv
       subst hv
       exact ⟨_, _, rfl, by decide⟩)⟩

set_option maxRecDepth 100000 in
/-- C6 fails on the code: with a header and one row whose id `2024` is shorter than 8 bytes,
`alreadyDone` does not return an error, it panics on the slice `v[0][:8]`. -/
theorem alreadyDone_short_id_panics :
    alreadyDone (.records [[ascii "id", ascii "name"], [ascii "2024", ascii "Curry"]])
        (ascii "20240304") = .panic "slice bounds out of range" := by
  decide

set_option maxRecDepth 100000 in
/-- C7 fails as stated: on `"9.800円15.700円"` extraction succeeds and both names are empty. -/
theorem parseOneLine_empty_names :
    parseOneLine "9.800円15.700円".toList (Date 2024 3 4 0 0 0)
        = .ret
          ({ Id := "2024030409".toList
             Name := []
             Price := "800".toList
             Category := "定食".toList
             Description := "週代わり定食9番".toList
             DayStart := "2024-03-04".toList
             DayEnd := "2024-03-10".toList },
           { Id := "2024030415".toList
             Name := []
             Price := "700".toList
             Category := "定食".toList
             Description := "週代わり定食15番".toList
             DayStart := "2024-03-04".toList
             DayEnd := "2024-03-10".toList },
           none) ∧
      ¬ (∀ (text : List Char) (t : Time) (menu9 menu15 : Menu),
          parseOneLine text t = .ret (menu9, menu15, none) →
            menu9.Name ≠ [] ∧ menu15.Name ≠ []) := by
  have h : parseOneLine "9.800円15.700円".toList (Date 2024 3 4 0 0 0)
        = .ret
          ({ Id := "2024030409".toList
             Name := []
             Price := "800".toList
             Category := "定食".toList
             Description := "週代わり定食9番".toList
             DayStart := "2024-03-04".toList
             DayEnd := "2024-03-10".toList },
           { Id := "2024030415".toList
             Name := []
             Price := "700".toList
             Category := "定食".toList
             Description := "週代わり定食15番".toList
             DayStart := "2024-03-04".toList
             DayEnd := "2024-03-10".toList },
           none) := by decide
  refine ⟨h, fun hall => ?_⟩
  exact (hall _ _ _ _ h).1 rfl

/-- C7 as amended. When `parseOneLine` succeeds, each name is the text between the period
of a slot (`9.` or `15.`) and the price of that entry; it has no newline, and it is empty
exactly when the period is directly followed by a run of digits and `円`. -/
theorem parseOneLine_name_empty_iff (text : List Char) (t : Time) (menu9 menu15 : Menu)
    (h : parseOneLine text t = .ret (menu9, menu15, none)) :
    (∃ pre slot after, (slot = ['9'] ∨ slot = ['1', '5']) ∧
      text = pre ++ slot ++ '.' :: after ∧
      (∃ rest, after = menu9.Name ++ menu9.Price ++ '円' :: rest) ∧
      (∀ c ∈ menu9.Name, c ≠ '\n') ∧
      (menu9.Name = [] ↔ ∃ ds r, ds ≠ [] ∧ (∀ d ∈ ds, isDigit d = true) ∧
        after = ds ++ '円' :: r)) ∧
    (∃ pre slot after, (slot = ['9'] ∨ slot = ['1', '5']) ∧
      text = pre ++ slot ++ '.' :: after ∧
      (∃ rest, after = menu15.Name ++ menu15.Price ++ '円' :: rest) ∧
      (∀ c ∈ menu15.Name, c ≠ '\n') ∧
      (menu15.Name = [] ↔ ∃ ds r, ds ≠ [] ∧ (∀ d ∈ ds, isDigit d = true) ∧
        after = ds ++ '円' :: r)) := by
  obtain ⟨pre0, t0, rest0, pre1, t1, rest1, m0, m1, n0, p0, n1, p1, h1, he0, h2, he1,
    hn0, hp0, hn1, hp1, e9, e15⟩ := parseOneLine_ok h
  obtain ⟨_, _, a3, _, slot0, a5, a6, a7⟩ := entry_facts he0 hn0 hp0
  obtain ⟨_, _, b3, _, slot1, b5, b6, b7⟩ := entry_facts he1 hn1 hp1
  have hN9 : menu9.Name = n0 := by rw [e9]; rfl
  have hP9 : menu9.Price = p0 := by rw [e9]; rfl
  have hN15 : menu15.Name = n1 := by rw [e15]; rfl
  have hP15 : menu15.Price = p1 := by rw [e15]; rfl
  rw [hN9, hP9, hN15, hP15]
  refine ⟨⟨pre0, slot0, n0 ++ p0 ++ '円' :: rest0, a5, ?_, ⟨rest0, rfl⟩, a3, a7⟩,
    ⟨pre0 ++ (slot0 ++ '.' :: (n0 ++ p0 ++ '円' :: pre1)), slot1, n1 ++ p1 ++ '円' :: rest1,
      b5, ?_, ⟨rest1, rfl⟩, b3, b7⟩⟩
  · rw [h1, a6]; simp
  · rw [h1, a6, h2, b6]; simp

set_option maxRecDepth 100000 in
/-- C7 as amended, on `"9.800円15.Ramen700円"`: the first name is empty, its period being
followed by `800円`, and the second name is `Ramen`. -/
theorem parseOneLine_name_empty_iff_witness :
    (∃ pre slot after, (slot = ['9'] ∨ slot = ['1', '5']) ∧
      "9.800円15.Ramen700円".toList = pre ++ slot ++ '.' :: after ∧
      (∃ rest, after = ([] : List Char) ++ "800".toList ++ '円' :: rest) ∧
      (∀ c ∈ ([] : List Char), c ≠ '\n') ∧
      (([] : List Char) = [] ↔ ∃ ds r, ds ≠ [] ∧ (∀ d ∈ ds, isDigit d = true) ∧
        after = ds ++ '円' :: r)) ∧
    (∃ pre slot after, (slot = ['9'] ∨ slot = ['1', '5']) ∧
      "9.800円15.Ramen700円".toList = pre ++ slot ++ '.' :: after ∧
      (∃ rest, after = "Ramen".toList ++ "700".toList ++ '円' :: rest) ∧
      (∀ c ∈ "Ramen".toList, c ≠ '\n') ∧
      ("Ramen".toList = [] ↔ ∃ ds r, ds ≠ [] ∧ (∀ d ∈ ds, isDigit d = true) ∧
        after = ds ++ '円' :: r)) :=
  parseOneLine_name_empty_iff "9.800円15.Ramen700円".toList (Date 2024 3 4 0 0 0)
    { Id := "2024030409".toList
      Name := []
      Price := "800".toList
      Category := "定食".toList
      Description := "週代わり定食9番".toList
      DayStart := "2024-03-04".toList
      DayEnd := "2024-03-10".toList }
    { Id := "2024030415".toList
      Name := "Ramen".toList
      Price := "700".toList
      Category := "定食".toList
      Description := "週代わり定食15番".toList
      DayStart := "2024-03-04".toList
      DayEnd := "2024-03-10".toList }
    (by decide)

/-- C8. With at least two matches, `parseOneLine` builds `menu9` from the first match and
`menu15` from the second purely by position: names and prices are capture groups 2 and 3 of
matches 0 and 1, and the ids, categories, descriptions and dates are fixed functions of the
reference time, whatever slot the matches captured and whatever matches follow. -/
theorem parseOneLine_positional (text : List Char) (t : Time) (m0 m1 : Caps) (ms : List Caps)
    (h : re.FindAllStringSubmatch text = m0 :: m1 :: ms) :
    ∃ name9 price9 name15 price15,
      m0.get? 2 = some name9 ∧ m0.get? 3 = some price9 ∧
      m1.get? 2 = some name15 ∧ m1.get? 3 = some price15 ∧
      parseOneLine text t = .ret
        ({ Id := t.Format idFormat ++ "09".toList
           Name := name9
           Price := price9
           Category := "定食".toList
           Description := "週代わり定食9番".toList
           DayStart := t.Format dayFormat
           DayEnd := (t.AddDate 0 0 6).Format dayFormat },
         { Id := t.Format idFormat ++ "15".toList
           Name := name15
           Price := price15
           Category := "定食".toList
           Description := "週代わり定食15番".toList
           DayStart := t.Format dayFormat
           DayEnd := (t.AddDate 0 0 6).Format dayFormat },
         none) := by
  obtain ⟨f0, s0, n0, p0, f1, s1, n1, p1, hm0, hm1, hp⟩ := parseOneLine_of_matches t h
  refine ⟨n0, p0, n1, p1, by simp [hm0], by simp [hm0], by simp [hm1], by simp [hm1], ?_⟩
  rw [hp]
  rfl

set_option maxRecDepth 100000 in
/-- C8, the example: on `"15.Ramen700円9.Curry800円"` the first match captured slot `15` and
the second slot `9`, yet `menu9` is named `Ramen` with an id ending in `09` and `menu15` is
named `Curry` with an id ending in `15`. -/
theorem parseOneLine_positional_witness :
    re.FindAllStringSubmatch "15.Ramen700円9.Curry800円".toList
        = ["15.Ramen700円".toList :: "15".toList :: "Ramen".toList :: ["700".toList],
           "9.Curry800円".toList :: "9".toList :: "Curry".toList :: ["800".toList]] ∧
      ∃ menu9 menu15,
        parseOneLine "15.Ramen700円9.Curry800円".toList (Date 2024 3 4 0 0 0)
          = .ret (menu9, menu15, none) ∧
        menu9.Name = "Ramen".toList ∧ menu9.Id = "2024030409".toList ∧
        menu15.Name = "Curry".toList ∧ menu15.Id = "2024030415".toList := by
  have hall : re.FindAllStringSubmatch "15.Ramen700円9.Curry800円".toList
      = ["15.Ramen700円".toList :: "15".toList :: "Ramen".toList :: ["700".toList],
         "9.Curry800円".toList :: "9".toList :: "Curry".toList :: ["800".toList]] := by
    decide
  obtain ⟨name9, price9, name15, price15, h1, _, h3, _, hp⟩ :=
    parseOneLine_positional "15.Ramen700円9.Curry800円".toList (Date 2024 3 4 0 0 0) _ _ _ hall
  have e1 : (Date 2024 3 4 0 0 0).Format idFormat = "20240304".toList := by decide
  refine ⟨hall, _, _, hp, ?_, ?_, ?_, ?_⟩
  · simpa using h1.symm
  · simp only [e1]; decide
  · simpa using h3.symm
  · simp only [e1]; decide

set_option maxRecDepth 100000 in
/-- C9 fails on the code: when the first query finds the newer post `A` and the second the
older post `B`, `getNewestTweet` returns `B`, because `resultTime` is still the zero time
when `B` is compared. -/
theorem getNewestTweet_returns_older :
    getNewestTweet searchNewerFirst
        = .ret ({ Text := "B".toList, CreatedAtTime := some (Date 2024 3 3 12 0 0) }, none) ∧
      (Date 2024 3 4 12 0 0).After (Date 2024 3 3 12 0 0) = true := by
  decide

/-- C10. When `parseOneLine` succeeds, each returned price is a non-empty string of ASCII
digits and the corresponding name does not end with an ASCII digit; the text reads, at the
place of the entry, name, price, `円`, and the character just before the price is not a
digit, so the price is the whole maximal digit run that precedes the `円`. -/
theorem parseOneLine_price_is_digit_run (text : List Char) (t : Time) (menu9 menu15 : Menu)
    (h : parseOneLine text t = .ret (menu9, menu15, none)) :
    (menu9.Price ≠ [] ∧ (∀ d ∈ menu9.Price, isDigit d = true) ∧
      (∀ n x, menu9.Name = n ++ [x] → isDigit x = false) ∧
      ∃ before after, text = before ++ menu9.Name ++ menu9.Price ++ '円' :: after ∧
        ∀ b x, before ++ menu9.Name = b ++ [x] → isDigit x = false) ∧
    (menu15.Price ≠ [] ∧ (∀ d ∈ menu15.Price, isDigit d = true) ∧
      (∀ n x, menu15.Name = n ++ [x] → isDigit x = false) ∧
      ∃ before after, text = before ++ menu15.Name ++ menu15.Price ++ '円' :: after ∧
        ∀ b x, before ++ menu15.Name = b ++ [x] → isDigit x = false) := by
  obtain ⟨pre0, t0, rest0, pre1, t1, rest1, m0, m1, n0, p0, n1, p1, h1, he0, h2, he1,
    hn0, hp0, hn1, hp1, e9, e15⟩ := parseOneLine_ok h
  obtain ⟨a1, a2, _, a4, slot0, _, a6, _⟩ := entry_facts he0 hn0 hp0
  obtain ⟨b1, b2, _, b4, slot1, _, b6, _⟩ := entry_facts he1 hn1 hp1
  have hN9 : menu9.Name = n0 := by rw [e9]; rfl
  have hP9 : menu9.Price = p0 := by rw [e9]; rfl
  have hN15 : menu15.Name = n1 := by rw [e15]; rfl
  have hP15 : menu15.Price = p1 := by rw [e15]; rfl
  rw [hN9, hP9, hN15, hP15]
  refine ⟨⟨a1, a2, a4, pre0 ++ slot0 ++ ['.'], rest0, ?_, ?_⟩,
    ⟨b1, b2, b4, pre0 ++ (slot0 ++ '.' :: (n0 ++ p0 ++ '円' :: pre1)) ++ slot1 ++ ['.'],
      rest1, ?_, ?_⟩⟩
  · rw [h1, a6]; simp
  · intro b x hb
    exact before_price_not_digit pre0 slot0 n0 a4 b x (by rw [← hb]; simp)
  · rw [h1, a6, h2, b6]; simp
  · intro b x hb
    exact before_price_not_digit (pre0 ++ (slot0 ++ '.' :: (n0 ++ p0 ++ '円' :: pre1))) slot1 n1
      b4 b x (by rw [← hb]; simp)

set_option maxRecDepth 100000 in
/-- C10 on `"9.Curry800円15.Ramen700円"`: prices `800` and `700`, names `Curry` and `Ramen`. -/
theorem parseOneLine_price_is_digit_run_witness :
    (("800".toList ≠ [] ∧ (∀ d ∈ "800".toList, isDigit d = true) ∧
      (∀ n x, "Curry".toList = n ++ [x] → isDigit x = false) ∧
      ∃ before after,
        "9.Curry800円15.Ramen700円".toList
          = before ++ "Curry".toList ++ "800".toList ++ '円' :: after ∧
        ∀ b x, before ++ "Curry".toList = b ++ [x] → isDigit x = false) ∧
    ("700".toList ≠ [] ∧ (∀ d ∈ "700".toList, isDigit d = true) ∧
      (∀ n x, "Ramen".toList = n ++ [x] → isDigit x = false) ∧
      ∃ before after,
        "9.Curry800円15.Ramen700円".toList
          = before ++ "Ramen".toList ++ "700".toList ++ '円' :: after ∧
        ∀ b x, before ++ "Ramen".toList = b ++ [x] → isDigit x = false)) :=
  parseOneLine_price_is_digit_run "9.Curry800円15.Ramen700円".toList (Date 2024 3 4 0 0 0)
    { Id := "2024030409".toList
      Name := "Curry".toList
      Price := "800".toList
      Category := "定食".toList
      Description := "週代わり定食9番".toList
      DayStart := "2024-03-04".toList
      DayEnd := "2024-03-10".toList }
    { Id := "2024030415".toList
      Name := "Ramen".toList
      Price := "700".toList
      Category := "定食".toList
      Description := "週代わり定食15番".toList
      DayStart := "2024-03-04".toList
      DayEnd := "2024-03-10".toList }
    (by decide)

end GenWeekly
